import Mathlib

/-!
# InDesign portfolio scripts: `ProjectText.jsx` and `FigureDescriptions.jsx`

A shallow embedding of the pure logic of the two scripts.

* A JavaScript string is a `List Char`.  The scripts only look at single characters
  (`charAt`, one-character regular-expression atoms), so a UTF-16 surrogate pair, which
  none of these operations can split, is represented by the one character it encodes.
* `undefined` is `none` in `Option JSString`.
* Page coordinates are rationals.  The layout (`projectLayout`) is computed in exact
  arithmetic; the move of the attribute frame is also given with the rounding of every
  operation made explicit (`repositionedBounds`), `roundBinary64` being the rounding of
  the script's numbers.
* The InDesign host (text measurement, files, `String.prototype.toUpperCase` on
  arbitrary characters) is a `Host` record passed explicitly.
-/

namespace PortfolioUtilities

/-- A JavaScript string, as its sequence of characters. -/
abbrev JSString := List Char

/-! ## `ProjectText.jsx`: `parseCSVLine` -/

/-- The local variables `result`, `inQuote`, `field` of `parseCSVLine`. -/
structure ScanState where
  result : List JSString
  inQuote : Bool
  field : JSString
deriving DecidableEq

/-- One iteration of the `for` loop of `parseCSVLine`, on `currChar = line.charAt(i)`. -/
def scanChar (s : ScanState) (currChar : Char) : ScanState :=
  if currChar = '"' then ⟨s.result, !s.inQuote, s.field⟩
  else if currChar = ',' ∧ s.inQuote = false then ⟨s.result ++ [s.field], s.inQuote, []⟩
  else ⟨s.result, s.inQuote, s.field ++ [currChar]⟩

/-- The function `parseCSVLine(line)`: the loop over `i = 0 .. line.length - 1`, then
`if (field) result.push(field)` (a string is truthy exactly when it is non-empty). -/
def parseCSVLine (line : JSString) : List JSString :=
  let s := line.foldl scanChar ⟨[], false, []⟩
  if s.field ≠ [] then s.result ++ [s.field] else s.result

/-- Number of double-quote characters strictly before index `i`. -/
def quotesBefore (line : JSString) (i : Nat) : Nat := (line.take i).count '"'

/-- Index `i` holds a comma that is preceded by an even number of double quotes. -/
def isSeparatorAt (line : JSString) (i : Nat) : Bool :=
  line.get? i = some ',' && quotesBefore line i % 2 = 0

/-- The pieces of the line between the separating commas (the commas themselves removed). -/
def splitAtSeparators (line : JSString) : List JSString :=
  (line.enum.splitOnP (fun ic => isSeparatorAt line ic.1)).map (List.map Prod.snd)

/-- A piece with every double-quote character deleted. -/
def deleteQuotes (piece : JSString) : JSString := piece.filter (fun c => c ≠ '"')

/-- The reference result of the CSV line contract, in the words of the specification: split
at the commas preceded by an even number of quotes, delete the quotes of every piece, drop
the last piece if it is empty. -/
def referenceParse (line : JSString) : List JSString :=
  let pieces := (splitAtSeparators line).map deleteQuotes
  if pieces.getLast? = some [] then pieces.dropLast else pieces

/-- Auxiliary form of `splitAtSeparators` on a suffix of the line, `q` telling whether an odd
number of quotes precedes the suffix.  Used only in proofs. -/
def splitFrom (q : Bool) : List Char → List (List Char)
  | [] => [[]]
  | c :: cs =>
    if c = ',' ∧ q = false then [] :: splitFrom q cs
    else (splitFrom (if c = '"' then !q else q) cs).modifyHead (List.cons c)

/-! ## `FigureDescriptions.jsx`: `generateDescription` -/

/-- The regular expression `/^\d+=/` tried at index 0 (the only index where `^` holds, the
expression having no `m` flag): `\d+` greedily takes the longest run of `[0-9]`, of length
`n`, and the engine backtracks through the run lengths `n, n-1, ..., 1` until the character
after the run is `=`.  The result is the length of the match. -/
def matchOrderingDigits (s : JSString) : Option Nat :=
  let n := (s.takeWhile Char.isDigit).length
  ((List.range' 1 n).reverse.find? (fun k => s.get? k = some '=')).map (fun k => k + 1)

/-- The call `s.replace(/^\d+=/, '')`: the first match, if any, is deleted. -/
def replaceOrderingDigits (s : JSString) : JSString :=
  match matchOrderingDigits s with
  | some e => s.drop e
  | none => s

/-- The regular expression `/\.[^\.]+$/` tried at the start of `rest`, the input from the
current start index on: a `.`, then `[^\.]+` greedily takes the longest run of characters
other than `.`, of length `n`, and the engine backtracks through the run lengths
`n, n-1, ..., 1` until `$` holds, that is until the run ends where the input ends.  The
result is the length of the match. -/
def matchExtensionHere (rest : JSString) : Option Nat :=
  match rest with
  | [] => none
  | c :: tail =>
    if c = '.' then
      let n := (tail.takeWhile (fun d => d ≠ '.')).length
      ((List.range' 1 n).reverse.find? (fun k => k = tail.length)).map (fun k => k + 1)
    else none

/-- The call `s.replace(/\.[^\.]+$/, '')`: the start indices are tried from left to right,
and the first match is deleted.  (At the start index `s.length` the expression cannot
match, since it needs a `.`.) -/
def replaceExtension : JSString → JSString
  | [] => []
  | c :: cs =>
    match matchExtensionHere (c :: cs) with
    | some m => (c :: cs).drop m
    | none => c :: replaceExtension cs

/-- The function `generateDescription(imageName)`. -/
def generateDescription (imageName : JSString) : JSString :=
  replaceExtension (replaceOrderingDigits imageName)

/-- Specification step (i): remove the leading run of ASCII digits together with the `=`
that immediately follows it, when that run is non-empty and is followed by `=`. -/
def removeLeadingDigitsEq (name : JSString) : JSString :=
  let run := name.takeWhile Char.isDigit
  if run ≠ [] ∧ name.get? run.length = some '=' then name.drop (run.length + 1) else name

/-- Index of the last `.` of the name, if it has one. -/
def lastDotIndex (name : JSString) : Option Nat :=
  (List.range name.length).reverse.find? (fun i => name.get? i = some '.')

/-- Specification step (ii): remove everything from the last `.` to the end, when at least
one character follows that last `.`. -/
def removeFromLastDot (name : JSString) : JSString :=
  match lastDotIndex name with
  | some i => if i + 1 < name.length then name.take i else name
  | none => name

/-- The caption of the specification: step (i), then step (ii). -/
def referenceDescription (name : JSString) : JSString :=
  removeFromLastDot (removeLeadingDigitsEq name)

/-- The name starts with two ordering marks in a row: one or more digits, `=`, one or more
digits, `=`. -/
def HasTwoLeadingDigitsEq (x : JSString) : Prop :=
  ∃ d1 d2 rest, d1 ≠ [] ∧ d2 ≠ [] ∧ (∀ c ∈ d1, c.isDigit = true)
    ∧ (∀ c ∈ d2, c.isDigit = true) ∧ x = d1 ++ '=' :: (d2 ++ '=' :: rest)

/-- The name ends with two non-empty extensions: a `.`, one or more characters other than
`.`, a `.`, one or more characters other than `.`. -/
def HasTwoExtensions (x : JSString) : Prop :=
  ∃ stem e1 e2, e1 ≠ [] ∧ e2 ≠ [] ∧ '.' ∉ e1 ∧ '.' ∉ e2
    ∧ x = stem ++ '.' :: (e1 ++ '.' :: e2)

/-- Auxiliary form of `replaceExtension` by recursion on the name.  Used only in proofs. -/
def stripExtension : JSString → JSString
  | [] => []
  | c :: cs => if c = '.' ∧ cs ≠ [] ∧ '.' ∉ cs then [] else c :: stripExtension cs

/-! ## `ProjectText.jsx`: `formatAttributeName` -/

/-- The regular-expression class `\w`, that is `[A-Za-z0-9_]`. -/
def isWordChar (c : Char) : Bool := c.isAlphanum || c = '_'

/-- The call `s.replace(/_/g, ' ')`. -/
def replaceUnderscores (s : JSString) : JSString :=
  s.map (fun c => if c = '_' then ' ' else c)

/-- The call `s.replace(/\b(\w)/g, function(s) { return s.toUpperCase(); })`, scanning the
start indices from left to right; `prev` is the character of the input before the current
index (`none` at index 0).  `\b` holds at an index when exactly one of the characters before
and at the index is a `\w` character, a missing character counting as not `\w`; then `\w`
takes the character at the index, which is replaced by its upper case (on `[A-Za-z0-9_]`,
`toUpperCase` is the ASCII mapping `Char.toUpper`); the scan resumes after the match. -/
def upperCaseWordStarts (prev : Option Char) : JSString → JSString
  | [] => []
  | c :: cs =>
    let before := match prev with
      | some p => isWordChar p
      | none => false
    (if (before != isWordChar c) && isWordChar c then c.toUpper else c)
      :: upperCaseWordStarts (some c) cs

/-- The function `formatAttributeName(attributeName)`. -/
def formatAttributeName (attributeName : JSString) : JSString :=
  upperCaseWordStarts none (replaceUnderscores attributeName)

/-- Upper-casing of the first letter of every whitespace-delimited word, in the words of the
specification; `atWordStart` tells whether the current character is at the start of the
string or follows a whitespace character. -/
def capitalizeWords (atWordStart : Bool) : JSString → JSString
  | [] => []
  | c :: cs =>
    (if atWordStart && !c.isWhitespace then c.toUpper else c)
      :: capitalizeWords c.isWhitespace cs

/-- The display label of the specification: every underscore replaced by a space, then the
first letter of every whitespace-delimited word upper-cased. -/
def referenceFormat (key : JSString) : JSString :=
  capitalizeWords true (replaceUnderscores key)

/-- The label characterised position by position: after the underscores are replaced, a
character is upper-cased exactly when it is an ASCII letter or digit and the character
before it, if any, is not. -/
def upperCaseAfterNonAlphanum (t : JSString) : JSString :=
  List.zipWith
    (fun (before : Option Char) (c : Char) =>
      if c.isAlphanum && !(match before with
        | some p => p.isAlphanum
        | none => false) then c.toUpper else c)
    (none :: t.map some) t


/-! ## `ProjectText.jsx`: project records -/

/-- A JavaScript object whose property values are strings or `undefined` (`none`), as the
list of its properties in the order in which `for (var key in project)` visits them: the
array-index names first, in ascending numeric order, then the other names in the order of
their creation (ECMAScript 2015 and later). -/
abbrev JSObject := List (JSString × Option JSString)

/-- The property name `__proto__`. -/
def protoName : JSString := "__proto__".toList

/-- The number that a string of decimal digits stands for. -/
def decimalValue (key : JSString) : Nat :=
  key.foldl (fun n c => 10 * n + (c.toNat - 48)) 0

/-- An array-index name: the canonical decimal numeral (`0`, or digits not starting with
`0`) of an integer from 0 to 4294967294. -/
def isArrayIndex (key : JSString) : Bool :=
  key.all Char.isDigit && (key == ['0'] || key.head?.any (fun c => c != '0'))
    && decide (decimalValue key ≤ 4294967294)

/-- The place of a new array-index property: after the array-index properties of smaller
index, before all the others. -/
def insertArrayIndex (key : JSString) (value : Option JSString) : JSObject → JSObject
  | [] => [(key, value)]
  | kv :: rest =>
    if isArrayIndex kv.1 = true ∧ decimalValue kv.1 < decimalValue key then
      kv :: insertArrayIndex key value rest
    else (key, value) :: kv :: rest

/-- The assignment `obj[key] = value` of a string or of `undefined`: to `__proto__` it
changes nothing (the value is not an object); an existing property keeps its place and
takes the new value; a new array-index property goes to its place among the array-index
properties; any other new property is added after the others. -/
def setProperty (obj : JSObject) (key : JSString) (value : Option JSString) : JSObject :=
  if key = protoName then obj
  else if obj.any (fun kv => kv.1 = key) then
    obj.map (fun kv => if kv.1 = key then (key, value) else kv)
  else if isArrayIndex key = true then insertArrayIndex key value obj
  else obj ++ [(key, value)]

/-- The read `obj[key]`, `undefined` when the object has no such property. -/
def getProperty (obj : JSObject) (key : JSString) : Option JSString :=
  match obj.find? (fun kv => kv.1 = key) with
  | some kv => kv.2
  | none => none

/-- The conversion of a value to a string, as in `"..." + value`. -/
def toJSString (value : Option JSString) : JSString :=
  match value with
  | some s => s
  | none => "undefined".toList

/-- The record built for one data row by the loop
`for (j = 0; j < headers.length; j++) currentProject[headers[j]] = data[j]`;
`data[j]` is `undefined` when the row has no field `j`. -/
def currentProject (headers data : List JSString) : JSObject :=
  headers.enum.foldl (fun obj jh => setProperty obj jh.2 (data.get? jh.1)) []

/-! ## `ProjectText.jsx`: the attribute table -/

/-- The header rows on which every engine visits the properties in header order: no name
that comes after another is an array-index name, unless the earlier one is an array-index
name of smaller index. -/
def ArrayIndexNamesFirst (headers : List JSString) : Prop :=
  headers.Pairwise (fun earlier later =>
    isArrayIndex later = true →
      isArrayIndex earlier = true ∧ decimalValue earlier < decimalValue later)

/-- The array `skipAttributes` of `createProjectLayout`. -/
def skipAttributes : List JSString :=
  ["title".toList, "id".toList, "locked".toList, "page".toList, "type".toList]

/-- The loop of `isInSkipAttributes` from index `i` on, `rest` being
`skipAttributes[i], skipAttributes[i+1], ...`. -/
def isInSkipAttributesFrom (key : JSString) : List JSString → Bool
  | [] => false
  | skipped :: rest => if key = skipped then true else isInSkipAttributesFrom key rest

/-- The function `isInSkipAttributes(attribute)`; its parameter is called `key` here. -/
def isInSkipAttributes (key : JSString) : Bool :=
  isInSkipAttributesFrom key skipAttributes

/-- The expression `attributeName.charAt(0).toUpperCase() + attributeName.slice(1)`, for the
host's `toUpperCase` on a one-character string (which may give several characters). -/
def upperCaseFirst (toUpperCase : Char → JSString) (attributeName : JSString) : JSString :=
  match attributeName with
  | [] => []
  | c :: rest => toUpperCase c ++ rest

/-- The function `addAttributeToLayout(attributeName, attributeValue)`; the result is the new
value of the variable `contents`. -/
def addAttributeToLayout (toUpperCase : Char → JSString) (contents : JSString)
    (attributeName attributeValue : JSString) : JSString :=
  let attributeName := upperCaseFirst toUpperCase attributeName
  let attributeName := formatAttributeName attributeName
  contents ++ (attributeName ++ ['\t'] ++ attributeValue ++ ['\r'])

/-- The body of `for (var key in project)`: the attribute is added when
`!isInSkipAttributes(key) && project[key]`, a value being truthy when it is a non-empty
string. -/
def attributeStep (toUpperCase : Char → JSString) (contents : JSString)
    (kv : JSString × Option JSString) : JSString :=
  match kv.2 with
  | some value =>
    if isInSkipAttributes kv.1 = false ∧ value ≠ [] then
      addAttributeToLayout toUpperCase contents kv.1 value
    else contents
  | none => contents

/-- The variable `contents` after the loop `for (var key in project)`. -/
def attributeContents (toUpperCase : Char → JSString) (project : JSObject) : JSString :=
  project.foldl (attributeStep toUpperCase) []

/-- The attribute names left out of the table, as the specification lists them. -/
def excludedNames : List JSString :=
  ["title".toList, "id".toList, "locked".toList, "page".toList, "type".toList]

/-- The attribute-table text in the words of the specification, for a given labelling of the
names: in header order, over the header positions `j` whose name is not excluded and whose
data field `j` exists and is non-empty, the label of the name, a tab, the field, a carriage
return. -/
def attributeTable (label : JSString → JSString) (headers data : List JSString) : JSString :=
  ((List.range headers.length).map (fun j =>
    match headers.get? j, data.get? j with
    | some name, some value =>
      if name ∉ excludedNames ∧ value ≠ [] then label name ++ ['\t'] ++ value ++ ['\r']
      else []
    | _, _ => [])).flatten

/-- The ECMAScript upper-casing of one character, for the characters up to U+00FF: the ASCII
letters, the Latin-1 letters U+00E0..U+00FE other than the division sign, and the three
special cases U+00B5, U+00DF and U+00FF.  Characters above U+00FF are left as they are; the
function is only used at characters up to U+00FF. -/
def toUpperCaseLatin1 (c : Char) : JSString :=
  if c.toNat = 0xB5 then [Char.ofNat 0x39C]
  else if c.toNat = 0xDF then ['S', 'S']
  else if c.toNat = 0xFF then [Char.ofNat 0x178]
  else if 0xE0 ≤ c.toNat ∧ c.toNat ≤ 0xFE ∧ c.toNat ≠ 0xF7 then [Char.ofNat (c.toNat - 0x20)]
  else [c.toUpper]

/-! ## `ProjectText.jsx`: the document and the layout -/

/-- The measurements of one rendered line that the script reads. -/
structure Line where
  baseline : ℚ
  ascent : ℚ
  descent : ℚ
deriving DecidableEq

/-- The array `geometricBounds`, that is `[top, left, bottom, right]`. -/
structure Bounds where
  top : ℚ
  left : ℚ
  bottom : ℚ
  right : ℚ
deriving DecidableEq

/-- A text frame: the name of its layer, its bounds and its contents.  Fonts, styles and
threading are not modelled. -/
structure TextFrame where
  itemLayer : JSString
  geometricBounds : Bounds
  contents : JSString
deriving DecidableEq

/-- A page, as its text frames (`page.textFrames`), the most recently added first.  Page
items of other kinds are not modelled. -/
structure Page where
  textFrames : List TextFrame
deriving DecidableEq

/-- The document, as its pages (`doc.pages`). -/
structure Document where
  pages : List Page
deriving DecidableEq

/-- What the script asks of the host application: `toUpperCase` on a one-character string,
the folder of the script, the files (`none` for a file that does not exist), and the lines
the host renders for the attribute frame and for the temporary description frame, as a
function of their contents. -/
structure Host where
  toUpperCase : Char → JSString
  scriptFolder : JSString
  readFile : JSString → Option JSString
  attributeLines : JSString → List Line
  descriptionLines : JSString → List Line

/-- The function `getProjectDescriptionFromMD(projectTitle)`. -/
def getProjectDescriptionFromMD (host : Host) (projectTitle : Option JSString) : JSString :=
  let mdFilePath := host.scriptFolder ++ "/original_content/".toList
    ++ toJSString projectTitle ++ "/description.md".toList
  match host.readFile mdFilePath with
  | some content => content
  | none => []

/-- The inner loop of `findPageWithTitle` over `textFrames[j], textFrames[j+1], ...`: whether
it reaches `return page`.  The comparison `frame.contents === title` holds when `title` is
a string equal to the contents. -/
def frameLoop (title : Option JSString) : List TextFrame → Bool
  | [] => false
  | frame :: rest => if some frame.contents = title then true else frameLoop title rest

/-- The outer loop of `findPageWithTitle` over `doc.pages[i], doc.pages[i+1], ...`. -/
def pageLoop (title : Option JSString) (i : Nat) : List Page → Option Nat
  | [] => none
  | page :: rest =>
    if frameLoop title page.textFrames = true then some i else pageLoop title (i + 1) rest

/-- The function `findPageWithTitle(doc, title)`: the index `i` of the page `doc.pages[i]`
that is returned, or `none` for `null`. -/
def findPageWithTitle (doc : Document) (title : Option JSString) : Option Nat :=
  pageLoop title 0 doc.pages

/-- The name of the layer that holds the generated frames. -/
def scriptedLayer : JSString := "scripted".toList

/-- The function `clearScriptedItemsOnPage(page)`. -/
def clearScriptedItemsOnPage (page : Page) : Page :=
  ⟨page.textFrames.filter (fun item => item.itemLayer ≠ scriptedLayer)⟩

/-- The function `adjustFrameHeightToFitContent(frame)`, `lines` being
`frame.texts[0].lines`. -/
def adjustFrameHeightToFitContent (lines : List Line) (frame : TextFrame) : TextFrame :=
  match lines.getLast? with
  | some lastLine =>
    ⟨frame.itemLayer,
      ⟨frame.geometricBounds.top, frame.geometricBounds.left, lastLine.baseline,
        frame.geometricBounds.right⟩,
      frame.contents⟩
  | none => frame

/-- The variable `totalLinesHeight` of `createProjectLayout`, `lines` being
`tempFrame.lines`. -/
def totalLinesHeight (lines : List Line) : ℚ :=
  if h : lines.length > 1 then
    (lines.get ⟨lines.length - 1, by omega⟩).baseline - (lines.get ⟨0, by omega⟩).baseline
  else if h1 : lines.length = 1 then
    (lines.get ⟨0, by omega⟩).ascent + (lines.get ⟨0, by omega⟩).descent
  else 0

/-- The variable `xPosition`. -/
def xPosition : ℚ := 0.25

/-- The variable `yPosition`. -/
def yPosition : ℚ := 6

/-- The variable `colWidth`. -/
def colWidth : ℚ := 4

/-- The variable `columnBottom`. -/
def columnBottom : ℚ := 10.5

/-- The variable `yOffset`. -/
def yOffset : ℚ := 0.4375

/-- The variable `columnHeight`, from `totalLinesHeight`. -/
def columnHeight (totalLinesHeight : ℚ) : ℚ := totalLinesHeight / 2 + 0.25

/-- The variable `columnTop`, from `totalLinesHeight`. -/
def columnTop (totalLinesHeight : ℚ) : ℚ := columnBottom - columnHeight totalLinesHeight

/-- The bounds given to `descriptionFrame`. -/
def descriptionBounds (totalLinesHeight : ℚ) : Bounds :=
  ⟨columnTop totalLinesHeight, xPosition, columnBottom, xPosition + colWidth⟩

/-- The bounds given to `descriptionFrame2`, with `col2XPosition = xPosition + colWidth + 0`. -/
def descriptionBounds2 (totalLinesHeight : ℚ) : Bounds :=
  let col2XPosition := xPosition + colWidth + 0
  ⟨columnTop totalLinesHeight, col2XPosition, columnBottom, col2XPosition + colWidth⟩

/-- The frame `titleFrame`.  Its contents is `project.title`, a string whenever the page was
found by `findPageWithTitle`. -/
def titleFrame (project : JSObject) : TextFrame :=
  ⟨scriptedLayer, ⟨0.25, 0.25, 0.75, 8.25⟩, toJSString (getProperty project "title".toList)⟩

/-- The frame `frame` of the attribute table after `adjustFrameHeightToFitContent(frame)`. -/
def attributeFrame (host : Host) (project : JSObject) : TextFrame :=
  let contents := attributeContents host.toUpperCase project
  adjustFrameHeightToFitContent (host.attributeLines contents)
    ⟨scriptedLayer, ⟨yPosition, xPosition, yPosition + 3, xPosition + 8⟩, contents⟩

/-- The frames that `createProjectLayout` leaves on the page. -/
structure ProjectLayout where
  titleFrame : TextFrame
  frame : TextFrame
  descriptionFrames : Option (TextFrame × TextFrame)
deriving DecidableEq

/-- The value given to `project.description`, that is
`getProjectDescriptionFromMD(project.title)`. -/
def projectDescription (host : Host) (project : JSObject) : JSString :=
  getProjectDescriptionFromMD host (getProperty project "title".toList)

/-- The value of `totalLinesHeight` for a project, measured on the temporary frame that
holds its description. -/
def estimatedHeight (host : Host) (project : JSObject) : ℚ :=
  totalLinesHeight (host.descriptionLines (projectDescription host project))

/-- The frames computed by `createProjectLayout(project, page)` for a page that exists (the
only way `createOrUpdateProjectLayout` calls it), in exact arithmetic. -/
def projectLayout (host : Host) (project : JSObject) : ProjectLayout :=
  let frame := attributeFrame host project
  let frameHeight := frame.geometricBounds.bottom - frame.geometricBounds.top
  let description := projectDescription host project
  if description ≠ [] then
    let totalLinesHeight := estimatedHeight host project
    let descriptionFrame : TextFrame :=
      ⟨scriptedLayer, descriptionBounds totalLinesHeight, description⟩
    let descriptionFrame2 : TextFrame :=
      ⟨scriptedLayer, descriptionBounds2 totalLinesHeight, []⟩
    let frameTop := columnTop totalLinesHeight - yOffset
    ⟨titleFrame project,
      ⟨frame.itemLayer, ⟨frameTop - frameHeight, xPosition, frameTop, xPosition + 8⟩,
        frame.contents⟩,
      some (descriptionFrame, descriptionFrame2)⟩
  else
    ⟨titleFrame project, frame, none⟩

/-- The frames of a layout, the most recently added first. -/
def ProjectLayout.frames (layout : ProjectLayout) : List TextFrame :=
  match layout.descriptionFrames with
  | some (descriptionFrame, descriptionFrame2) =>
    [descriptionFrame2, descriptionFrame, layout.frame, layout.titleFrame]
  | none => [layout.frame, layout.titleFrame]

/-- The function `createProjectLayout(project, page)` as a change of the page. -/
def createProjectLayout (host : Host) (project : JSObject) (page : Page) : Page :=
  ⟨(projectLayout host project).frames ++ page.textFrames⟩

/-- The function `createOrUpdateProjectLayout(project)` as a change of the document. -/
def createOrUpdateProjectLayout (host : Host) (doc : Document) (project : JSObject) :
    Document :=
  match findPageWithTitle doc (getProperty project "title".toList) with
  | some i =>
    ⟨doc.pages.modify
      (fun page => createProjectLayout host project (clearScriptedItemsOnPage page)) i⟩
  | none => doc

/-- A host for the examples: Latin-1 upper-casing, one description file for the project
`Alpha`, two attribute lines and three description lines. -/
def exampleHost : Host :=
  ⟨toUpperCaseLatin1, "/scripts".toList,
    fun path =>
      if path = "/scripts/original_content/Alpha/description.md".toList then
        some "A long description.".toList
      else none,
    fun _ => [⟨6.125, 0.1, 0.03⟩, ⟨6.25, 0.1, 0.03⟩],
    fun _ => [⟨0, 0.1, 0.03⟩, ⟨2, 0.1, 0.03⟩, ⟨4, 0.1, 0.03⟩]⟩

/-- The record of the examples, built from the header `title,owner,budget` and the row
`Alpha,Jane,5000`. -/
def exampleProject : JSObject :=
  currentProject (parseCSVLine "title,owner,budget".toList)
    (parseCSVLine "Alpha,Jane,5000".toList)

/-- A document for the examples: a page without the title, then two pages with it. -/
def exampleDocument : Document :=
  ⟨[⟨[⟨"Layer 1".toList, ⟨1, 1, 2, 5⟩, "alpha".toList⟩]⟩,
    ⟨[⟨"Layer 1".toList, ⟨1, 1, 2, 5⟩, "Beta".toList⟩,
      ⟨"Layer 1".toList, ⟨3, 1, 4, 5⟩, "Alpha".toList⟩]⟩,
    ⟨[⟨"Layer 1".toList, ⟨1, 1, 2, 5⟩, "Alpha".toList⟩]⟩]⟩

/-! ## `ProjectText.jsx`: the move of the attribute frame in rounded arithmetic -/

/-- The integer nearest to `x`, the even one of the two when `x` is half-way between them. -/
def roundHalfEven (x : ℚ) : ℤ :=
  if x - ⌊x⌋ < 1 / 2 then ⌊x⌋
  else if 1 / 2 < x - ⌊x⌋ then ⌊x⌋ + 1
  else if ⌊x⌋ % 2 = 0 then ⌊x⌋ else ⌊x⌋ + 1

/-- The rounding of a JavaScript number operation: the exact result `q` is replaced by the
nearest number with 53 significant binary digits, ties to even (IEEE 754 binary64).  The
range of the exponent is not bounded: no overflow to `Infinity`, no subnormal numbers. -/
def roundBinary64 (q : ℚ) : ℚ :=
  if q = 0 then 0
  else roundHalfEven (q / 2 ^ (Int.log 2 |q| - 52)) * 2 ^ (Int.log 2 |q| - 52)

/-- The variable `frameHeight`, that is `frame.geometricBounds[2] - frame.geometricBounds[0]`,
the result of the subtraction rounded by `fl`. -/
def frameHeightRounded (fl : ℚ → ℚ) (bounds : Bounds) : ℚ :=
  fl (bounds.bottom - bounds.top)

/-- The variable `columnHeight`, that is `totalLinesHeight / 2 + 0.25`, every operation
rounded by `fl`. -/
def columnHeightRounded (fl : ℚ → ℚ) (totalLinesHeight : ℚ) : ℚ :=
  fl (fl (totalLinesHeight / 2) + 0.25)

/-- The variable `columnTop`, that is `columnBottom - columnHeight`, rounded by `fl`. -/
def columnTopRounded (fl : ℚ → ℚ) (totalLinesHeight : ℚ) : ℚ :=
  fl (columnBottom - columnHeightRounded fl totalLinesHeight)

/-- The variable `frameTop`, that is `columnTop - yOffset`, rounded by `fl`. -/
def frameTopRounded (fl : ℚ → ℚ) (totalLinesHeight : ℚ) : ℚ :=
  fl (columnTopRounded fl totalLinesHeight - yOffset)

/-- The bounds `[frameTop - frameHeight, xPosition, frameTop, xPosition + 8]` given to the
attribute frame, from `totalLinesHeight` and the bounds the frame had; `fl` rounds the
result of every operation.  With `fl` the identity this is the exact arithmetic of
`projectLayout`, with `fl = roundBinary64` the arithmetic of the script's numbers. -/
def repositionedBounds (fl : ℚ → ℚ) (totalLinesHeight : ℚ) (bounds : Bounds) : Bounds :=
  ⟨fl (frameTopRounded fl totalLinesHeight - frameHeightRounded fl bounds), xPosition,
    frameTopRounded fl totalLinesHeight, fl (xPosition + 8)⟩

/-- The bounds of an attribute frame whose last line has the baseline 6.7, as the number
nearest to 6.7 that the script can hold. -/
def exampleBounds : Bounds := ⟨6, 0.25, 7543529375845581 / 2 ^ 50, 8.25⟩

/-! ## Lemmas on `parseCSVLine` -/

theorem map_modifyHead_snd (c : Nat × Char) (L : List (List (Nat × Char))) :
    (L.modifyHead (List.cons c)).map (List.map Prod.snd)
      = (L.map (List.map Prod.snd)).modifyHead (List.cons c.2) := by
  cases L <;> simp [List.modifyHead]


theorem isSeparatorAt_append (pre cs : List Char) (c : Char) :
    isSeparatorAt (pre ++ c :: cs) pre.length
      = (decide (c = ',') && decide (pre.count '"' % 2 = 0)) := by
  have hget : (pre ++ c :: cs).get? pre.length = some c := by
    rw [List.get?_eq_getElem?, List.getElem?_append_right (Nat.le_refl _)]
    simp
  have htake : (pre ++ c :: cs).take pre.length = pre := by simp
  unfold isSeparatorAt quotesBefore
  rw [hget, htake]
  simp

theorem count_quote_snoc (pre : List Char) (c : Char) :
    (pre ++ [c]).count '"' = pre.count '"' + (if c = '"' then 1 else 0) := by
  rw [List.count_append, List.count_singleton]
  by_cases h : c = '"'
  · simp [h]
  · have h2 : ¬ ('"' = c) := fun e => h e.symm
    simp [h, h2]

theorem splitOnP_enumFrom (line pre : List Char) :
    ∀ (suf : List Char), line = pre ++ suf →
      ((List.enumFrom pre.length suf).splitOnP (fun ic => isSeparatorAt line ic.1)).map
          (List.map Prod.snd)
        = splitFrom (decide (pre.count '"' % 2 = 1)) suf := by
  intro suf
  induction suf generalizing pre with
  | nil => intro _; simp [splitFrom, List.splitOnP_nil]
  | cons c cs ih =>
    intro hline
    have hnext := ih (pre ++ [c]) (by simp [hline])
    have hsep : isSeparatorAt line pre.length
        = (decide (c = ',') && decide (pre.count '"' % 2 = 0)) := by
      rw [hline]; exact isSeparatorAt_append pre cs c
    rw [List.enumFrom_cons, List.splitOnP_cons]
    rw [List.length_append, List.length_singleton, count_quote_snoc] at hnext
    simp only [hsep, splitFrom]
    by_cases hc : c = ','
    · have hnq : ¬ c = '"' := by rw [hc]; decide
      simp only [hnq, if_false, Nat.add_zero] at hnext
      by_cases hq : pre.count '"' % 2 = 0
      · have hq1 : ¬ pre.count '"' % 2 = 1 := by omega
        simp [hc, hq, hnext]
      · have hq1 : pre.count '"' % 2 = 1 := by omega
        simp [hc, hq1, hnext, map_modifyHead_snd]
    · by_cases hquote : c = '"'
      · simp only [hquote, if_true] at hnext
        have hflip : decide ((pre.count '"' + 1) % 2 = 1) = !decide (pre.count '"' % 2 = 1) := by
          by_cases hq : pre.count '"' % 2 = 1
          · have : ¬ (pre.count '"' + 1) % 2 = 1 := by omega
            simp [hq, this]
          · have : (pre.count '"' + 1) % 2 = 1 := by omega
            simp [hq, this]
        rw [hflip] at hnext
        simp [hc, hquote, hnext, map_modifyHead_snd]
      · simp only [hquote, if_false, Nat.add_zero] at hnext
        simp [hc, hquote, hnext, map_modifyHead_snd]

theorem splitAtSeparators_eq (line : List Char) :
    splitAtSeparators line = splitFrom false line := by
  have h := splitOnP_enumFrom line [] line (by simp)
  simpa [splitAtSeparators, List.enum] using h

theorem deleteQuotes_modifyHead_quote (L : List (List Char)) :
    (L.modifyHead (List.cons '"')).map deleteQuotes = L.map deleteQuotes := by
  cases L <;> simp [List.modifyHead, deleteQuotes]

theorem deleteQuotes_modifyHead_other (c : Char) (hc : c ≠ '"') (L : List (List Char)) :
    (L.modifyHead (List.cons c)).map deleteQuotes
      = (L.map deleteQuotes).modifyHead (List.cons c) := by
  cases L <;> simp [List.modifyHead, deleteQuotes, hc]

theorem foldl_scanChar (suf : List Char) :
    ∀ (r : List JSString) (q : Bool) (f : JSString),
      (suf.foldl scanChar ⟨r, q, f⟩).result ++ [(suf.foldl scanChar ⟨r, q, f⟩).field]
        = r ++ ((splitFrom q suf).map deleteQuotes).modifyHead (fun h => f ++ h) := by
  induction suf with
  | nil => intro r q f; simp [splitFrom, deleteQuotes, List.modifyHead]
  | cons c cs ih =>
    intro r q f
    rw [List.foldl_cons]
    by_cases hquote : c = '"'
    · have hstep : scanChar ⟨r, q, f⟩ c = ⟨r, !q, f⟩ := by simp [scanChar, hquote]
      have hne : ¬ (c = ',') := by rw [hquote]; decide
      rw [hstep, ih]
      simp [splitFrom, hquote, deleteQuotes_modifyHead_quote]
    · by_cases hsep : c = ',' ∧ q = false
      · have hstep : scanChar ⟨r, q, f⟩ c = ⟨r ++ [f], q, []⟩ := by
          simp [scanChar, hquote, hsep]
        rw [hstep, ih]
        have hid : ∀ L : List (List Char), L.modifyHead (fun h => [] ++ h) = L := by
          intro L; cases L <;> simp [List.modifyHead]
        rw [hid]
        simp [splitFrom, hsep, List.modifyHead, deleteQuotes]
      · have hstep : scanChar ⟨r, q, f⟩ c = ⟨r, q, f ++ [c]⟩ := by
          simp only [scanChar, hquote, hsep, if_false]
        rw [hstep, ih]
        simp only [splitFrom, hsep, hquote, if_false]
        rw [deleteQuotes_modifyHead_other c hquote]
        cases (splitFrom q cs).map deleteQuotes <;> simp [List.modifyHead]

theorem parseCSVLine_matches_reference (line : JSString) :
    parseCSVLine line = referenceParse line := by
  have h := foldl_scanChar line [] false []
  have hid : ∀ L : List (List Char), L.modifyHead (fun h => [] ++ h) = L := by
    intro L; cases L <;> simp [List.modifyHead]
  rw [List.nil_append, hid, ← splitAtSeparators_eq] at h
  unfold referenceParse parseCSVLine
  simp only [← h]
  by_cases hf : (List.foldl scanChar ⟨[], false, []⟩ line).field = []
  · simp [hf]
  · simp [hf]

/-- Claim C1: for every line, quotes balanced or not, `parseCSVLine` gives the reference
result: the line split at the commas preceded by an even number of double quotes, every
double quote deleted from the pieces, the last piece dropped if it is empty; so
`a,b,c` gives `a`, `b`, `c`; `a,"b,c",d` gives `a`, `b,c`, `d`; the empty line gives no
field; and `a,` gives `a` alone. -/
theorem parseCSVLine_eq_referenceParse :
    (∀ line : JSString, parseCSVLine line = referenceParse line)
    ∧ parseCSVLine "a,b,c".toList = ["a".toList, "b".toList, "c".toList]
    ∧ parseCSVLine ['a', ',', '"', 'b', ',', 'c', '"', ',', 'd']
        = ["a".toList, "b,c".toList, "d".toList]
    ∧ parseCSVLine [] = []
    ∧ parseCSVLine "a,".toList = ["a".toList] :=
  ⟨parseCSVLine_matches_reference, by decide, by decide, by decide, by decide⟩

/-! ## Lemmas on `generateDescription` -/

theorem get?_of_lt_takeWhile (p : Char → Bool) (s : List Char) (k : Nat)
    (hk : k < (s.takeWhile p).length) : ∃ d, s.get? k = some d ∧ p d = true := by
  induction s generalizing k with
  | nil => simp at hk
  | cons a t ih =>
    by_cases ha : p a = true
    · rw [List.takeWhile_cons_of_pos ha] at hk
      cases k with
      | zero => exact ⟨a, by simp, ha⟩
      | succ k =>
        have hk2 : k < (t.takeWhile p).length := by simpa using hk
        obtain ⟨d, hd, hpd⟩ := ih k hk2
        exact ⟨d, by simpa using hd, hpd⟩
    · rw [List.takeWhile_cons_of_neg ha] at hk
      simp at hk

theorem find?_reverse_range' (q : Nat → Bool) (n : Nat)
    (hbelow : ∀ k, 1 ≤ k → k < n → q k = false) :
    (List.range' 1 n).reverse.find? q = if 1 ≤ n ∧ q n = true then some n else none := by
  cases n with
  | zero => simp
  | succ m =>
    have hrest : (List.range' 1 m).reverse.find? q = none := by
      rw [List.find?_eq_none]
      intro k hk
      rw [List.mem_reverse, List.mem_range'_1] at hk
      simp [hbelow k hk.1 (by omega)]
    have hlist : (List.range' 1 (m + 1)).reverse = (m + 1) :: (List.range' 1 m).reverse := by
      rw [List.range'_concat, List.reverse_append, List.reverse_singleton, List.singleton_append]
      congr 1
      omega
    rw [hlist, List.find?_cons]
    by_cases hq : q (m + 1) = true
    · simp [hq]
    · have hq2 : q (m + 1) = false := by simpa using hq
      simp [hq2, hrest]

theorem matchOrderingDigits_eq (s : JSString) :
    matchOrderingDigits s
      = if s.takeWhile Char.isDigit ≠ [] ∧ s.get? (s.takeWhile Char.isDigit).length = some '='
        then some ((s.takeWhile Char.isDigit).length + 1) else none := by
  unfold matchOrderingDigits
  have hbelow : ∀ k, 1 ≤ k → k < (s.takeWhile Char.isDigit).length →
      decide (s.get? k = some '=') = false := by
    intro k _ hk
    obtain ⟨d, hd, hdig⟩ := get?_of_lt_takeWhile Char.isDigit s k hk
    rw [hd]
    have hne : d ≠ '=' := by
      intro h
      rw [h] at hdig
      exact absurd hdig (by decide)
    simp [hne]
  simp only []
  rw [find?_reverse_range' (fun k => decide (s.get? k = some '=')) _ hbelow]
  by_cases hrun : s.takeWhile Char.isDigit = []
  · simp [hrun]
  · have hpos : 1 ≤ (s.takeWhile Char.isDigit).length := by
      cases hs : s.takeWhile Char.isDigit with
      | nil => exact absurd hs hrun
      | cons a t => simp
    by_cases heq : s.get? (s.takeWhile Char.isDigit).length = some '='
    · have hd : decide (s.get? (s.takeWhile Char.isDigit).length = some '=') = true :=
        decide_eq_true heq
      rw [if_pos ⟨hpos, hd⟩, if_pos ⟨hrun, heq⟩]
      rfl
    · have hd : ¬ decide (s.get? (s.takeWhile Char.isDigit).length = some '=') = true := by
        simpa using heq
      rw [if_neg (fun h => hd h.2), if_neg (fun h => heq h.2)]
      rfl

theorem replaceOrderingDigits_eq (s : JSString) :
    replaceOrderingDigits s = removeLeadingDigitsEq s := by
  unfold replaceOrderingDigits removeLeadingDigitsEq
  rw [matchOrderingDigits_eq]
  by_cases h : s.takeWhile Char.isDigit ≠ [] ∧
      s.get? (s.takeWhile Char.isDigit).length = some '='
  · rw [if_pos h, if_pos h]
  · rw [if_neg h, if_neg h]

theorem matchExtensionHere_cons (c : Char) (tail : JSString) :
    matchExtensionHere (c :: tail)
      = if c = '.' ∧ tail ≠ [] ∧ '.' ∉ tail then some (tail.length + 1) else none := by
  unfold matchExtensionHere
  by_cases hc : c = '.'
  · simp only [hc, if_true, true_and]
    have hle : (tail.takeWhile (fun d => decide (d ≠ '.'))).length ≤ tail.length :=
      (List.takeWhile_sublist _).length_le
    have hbelow : ∀ k, 1 ≤ k → k < (tail.takeWhile (fun d => decide (d ≠ '.'))).length →
        decide (k = tail.length) = false := by
      intro k _ hk
      have : k ≠ tail.length := by omega
      simp [this]
    rw [find?_reverse_range' (fun k => decide (k = tail.length)) _ hbelow]
    by_cases hall : '.' ∉ tail
    · have hself : tail.takeWhile (fun d => decide (d ≠ '.')) = tail := by
        rw [List.takeWhile_eq_self_iff]
        intro x hx
        have : x ≠ '.' := fun h => hall (h ▸ hx)
        simp [this]
      rw [hself]
      by_cases hnil : tail = []
      · simp [hnil]
      · have hpos : 1 ≤ tail.length := by
          cases tail with
          | nil => exact absurd rfl hnil
          | cons a t => simp
        have hd : decide (tail.length = tail.length) = true := by simp
        rw [if_pos ⟨hpos, hd⟩, if_pos ⟨hnil, hall⟩]
        rfl
    · have hlt : (tail.takeWhile (fun d => decide (d ≠ '.'))).length ≠ tail.length := by
        intro hlen
        apply hall
        have hself : tail.takeWhile (fun d => decide (d ≠ '.')) = tail :=
          (List.takeWhile_sublist _).eq_of_length hlen
        rw [List.takeWhile_eq_self_iff] at hself
        intro hmem
        have := hself '.' hmem
        simp at this
      have hd : ¬ decide ((tail.takeWhile (fun d => decide (d ≠ '.'))).length = tail.length)
          = true := by simpa using hlt
      rw [if_neg (fun h => hd h.2), if_neg (fun h => hall h.2)]
      rfl
  · simp [hc]

theorem replaceExtension_eq_strip (s : JSString) : replaceExtension s = stripExtension s := by
  induction s with
  | nil => rfl
  | cons c cs ih =>
    unfold replaceExtension stripExtension
    rw [matchExtensionHere_cons]
    by_cases h : c = '.' ∧ cs ≠ [] ∧ '.' ∉ cs
    · rw [if_pos h, if_pos h]
      simp
    · rw [if_neg h, if_neg h, ih]

theorem lastDotIndex_cons (c : Char) (cs : JSString) :
    lastDotIndex (c :: cs)
      = match lastDotIndex cs with
        | some i => some (i + 1)
        | none => if c = '.' then some 0 else none := by
  unfold lastDotIndex
  have hfun : ((fun i => decide ((c :: cs).get? i = some '.')) ∘ Nat.succ)
      = (fun i => decide (cs.get? i = some '.')) := by
    funext i
    simp
  rw [List.length_cons, List.range_succ_eq_map, List.reverse_cons, List.find?_append,
    ← List.map_reverse, List.find?_map, hfun]
  cases h : (List.range cs.length).reverse.find? (fun i => decide (cs.get? i = some '.')) with
  | some i => simp
  | none =>
    by_cases hc : c = '.'
    · simp [hc]
    · simp [hc]

theorem lastDotIndex_eq_none (s : JSString) : lastDotIndex s = none ↔ '.' ∉ s := by
  induction s with
  | nil => simp [lastDotIndex]
  | cons c cs ih =>
    rw [lastDotIndex_cons]
    cases h : lastDotIndex cs with
    | some i =>
      have hmem : '.' ∈ cs := by
        by_contra hcon
        rw [ih.mpr hcon] at h
        exact Option.noConfusion h
      simp [hmem]
    | none =>
      have hnot : '.' ∉ cs := ih.mp h
      by_cases hc : c = '.'
      · simp [hc]
      · have hc2 : ¬ ('.' = c) := fun e => hc e.symm
        simp [hc, hc2, hnot]

theorem stripExtension_of_not_mem (s : JSString) (h : '.' ∉ s) : stripExtension s = s := by
  induction s with
  | nil => rfl
  | cons c cs ih =>
    have hc : c ≠ '.' := fun e => h (by simp [e])
    have hcs : '.' ∉ cs := fun e => h (List.mem_cons_of_mem _ e)
    unfold stripExtension
    rw [if_neg (fun hh => hc hh.1), ih hcs]

theorem stripExtension_cons_of_mem (c : Char) (cs : JSString) (h : '.' ∈ cs) :
    stripExtension (c :: cs) = c :: stripExtension cs := by
  have hcond : ¬ (c = '.' ∧ cs ≠ [] ∧ '.' ∉ cs) := fun hh => hh.2.2 h
  rw [stripExtension, if_neg hcond]

theorem removeFromLastDot_cons_of_mem (c : Char) (cs : JSString) (h : '.' ∈ cs) :
    removeFromLastDot (c :: cs) = c :: removeFromLastDot cs := by
  unfold removeFromLastDot
  rw [lastDotIndex_cons]
  cases hi : lastDotIndex cs with
  | none => exact absurd h ((lastDotIndex_eq_none cs).mp hi)
  | some i =>
    simp only [List.length_cons, List.take_succ_cons]
    by_cases hlt : i + 1 < cs.length
    · have hlt2 : i + 1 + 1 < cs.length + 1 := by omega
      rw [if_pos hlt, if_pos hlt2]
    · have hlt2 : ¬ i + 1 + 1 < cs.length + 1 := by omega
      rw [if_neg hlt, if_neg hlt2]

theorem removeFromLastDot_of_not_mem (s : JSString) (h : '.' ∉ s) :
    removeFromLastDot s = s := by
  unfold removeFromLastDot
  rw [(lastDotIndex_eq_none s).mpr h]

theorem removeFromLastDot_eq_strip (s : JSString) : removeFromLastDot s = stripExtension s := by
  induction s with
  | nil => rfl
  | cons c cs ih =>
    by_cases hmem : '.' ∈ cs
    · rw [removeFromLastDot_cons_of_mem c cs hmem, stripExtension_cons_of_mem c cs hmem, ih]
    · by_cases hc : c = '.'
      · subst hc
        by_cases hnil : cs = []
        · subst hnil
          decide
        · have hpos : 0 + 1 < cs.length + 1 := by
            cases cs with
            | nil => exact absurd rfl hnil
            | cons a t => simp
          have hcond : ('.' : Char) = '.' ∧ cs ≠ [] ∧ '.' ∉ cs := ⟨rfl, hnil, hmem⟩
          have hstrip : stripExtension ('.' :: cs) = [] := by
            rw [stripExtension, if_pos hcond]
          rw [hstrip]
          unfold removeFromLastDot
          rw [lastDotIndex_cons, (lastDotIndex_eq_none cs).mpr hmem]
          simp only [if_true, List.length_cons, List.take_zero]
          rw [if_pos hpos]
      · have hall : '.' ∉ c :: cs := by
          intro hh
          rcases List.mem_cons.mp hh with h1 | h1
          · exact hc h1.symm
          · exact hmem h1
        rw [removeFromLastDot_of_not_mem _ hall, stripExtension_of_not_mem _ hall]

theorem generateDescription_eq_strip (name : JSString) :
    generateDescription name = stripExtension (removeLeadingDigitsEq name) := by
  unfold generateDescription
  rw [replaceExtension_eq_strip, replaceOrderingDigits_eq]

theorem generateDescription_matches_reference (name : JSString) :
    generateDescription name = referenceDescription name := by
  rw [generateDescription_eq_strip]
  unfold referenceDescription
  rw [removeFromLastDot_eq_strip]

theorem stripExtension_isPrefix (s : JSString) : stripExtension s <+: s := by
  induction s with
  | nil => exact List.prefix_refl _
  | cons c cs ih =>
    rw [stripExtension]
    by_cases h : c = '.' ∧ cs ≠ [] ∧ '.' ∉ cs
    · rw [if_pos h]; exact List.nil_prefix
    · rw [if_neg h]; exact (List.cons_prefix_cons).mpr ⟨rfl, ih⟩

theorem takeWhile_append_of_get? (p : Char → Bool) (z w : List Char) (c : Char)
    (h : z.get? (z.takeWhile p).length = some c) :
    (z ++ w).takeWhile p = z.takeWhile p := by
  induction z with
  | nil => simp at h
  | cons a t ih =>
    by_cases ha : p a = true
    · rw [List.takeWhile_cons_of_pos ha] at h
      rw [List.cons_append, List.takeWhile_cons_of_pos ha, List.takeWhile_cons_of_pos ha]
      rw [ih (by simpa using h)]
    · rw [List.cons_append, List.takeWhile_cons_of_neg ha, List.takeWhile_cons_of_neg ha]

theorem leadingDigitsEq_of_isPrefix (z s : JSString) (hpre : z <+: s)
    (h : z.takeWhile Char.isDigit ≠ [] ∧ z.get? (z.takeWhile Char.isDigit).length = some '=') :
    s.takeWhile Char.isDigit ≠ [] ∧ s.get? (s.takeWhile Char.isDigit).length = some '=' := by
  obtain ⟨w, rfl⟩ := hpre
  have htw := takeWhile_append_of_get? Char.isDigit z w '=' h.2
  rw [htw]
  refine ⟨h.1, ?_⟩
  have hlt : (z.takeWhile Char.isDigit).length < z.length := by
    by_contra hge
    have hnone : z.get? (z.takeWhile Char.isDigit).length = none := by
      rw [List.get?_eq_none]
      omega
    rw [hnone] at h
    exact Option.noConfusion h.2
  rw [List.get?_eq_getElem?, List.getElem?_append_left hlt, ← List.get?_eq_getElem?]
  exact h.2

theorem removeLeadingDigitsEq_of_not (s : JSString)
    (h : ¬ (s.takeWhile Char.isDigit ≠ [] ∧
      s.get? (s.takeWhile Char.isDigit).length = some '=')) :
    removeLeadingDigitsEq s = s := by
  unfold removeLeadingDigitsEq
  exact if_neg h

theorem takeWhile_isDigit_append (d rest : List Char) (hd : ∀ c ∈ d, c.isDigit = true) :
    (d ++ '=' :: rest).takeWhile Char.isDigit = d := by
  induction d with
  | nil => rfl
  | cons a t ih =>
    have ha : a.isDigit = true := hd a (by simp)
    rw [List.cons_append, List.takeWhile_cons_of_pos ha,
      ih (fun c hc => hd c (List.mem_cons_of_mem _ hc))]

theorem leadingDigitsEq_of_append (d rest : List Char) (hne : d ≠ [])
    (hd : ∀ c ∈ d, c.isDigit = true) :
    ((d ++ '=' :: rest).takeWhile Char.isDigit ≠ [] ∧
      (d ++ '=' :: rest).get? ((d ++ '=' :: rest).takeWhile Char.isDigit).length = some '=')
    ∧ removeLeadingDigitsEq (d ++ '=' :: rest) = rest := by
  have htw := takeWhile_isDigit_append d rest hd
  have hget : (d ++ '=' :: rest).get? d.length = some '=' := by
    rw [List.get?_eq_getElem?, List.getElem?_append_right (Nat.le_refl _)]
    simp
  have hcond : (d ++ '=' :: rest).takeWhile Char.isDigit ≠ [] ∧
      (d ++ '=' :: rest).get? ((d ++ '=' :: rest).takeWhile Char.isDigit).length
        = some '=' := by
    rw [htw]
    exact ⟨hne, hget⟩
  refine ⟨hcond, ?_⟩
  unfold removeLeadingDigitsEq
  rw [if_pos hcond, htw]
  have hsplit : d ++ '=' :: rest = (d ++ ['=']) ++ rest := by simp
  rw [hsplit]
  exact List.drop_left' (by simp)

theorem append_of_leadingDigitsEq (s : JSString)
    (h : s.takeWhile Char.isDigit ≠ [] ∧
      s.get? (s.takeWhile Char.isDigit).length = some '=') :
    ∃ d rest, d ≠ [] ∧ (∀ c ∈ d, c.isDigit = true) ∧ s = d ++ '=' :: rest
      ∧ removeLeadingDigitsEq s = rest := by
  have hlt : (s.takeWhile Char.isDigit).length < s.length := by
    by_contra hge
    have hnone : s.get? (s.takeWhile Char.isDigit).length = none := by
      rw [List.get?_eq_none]
      omega
    rw [hnone] at h
    exact Option.noConfusion h.2
  have hget : s[(s.takeWhile Char.isDigit).length] = '=' := by
    have h2 := h.2
    rw [List.get?_eq_getElem?, List.getElem?_eq_getElem hlt] at h2
    exact Option.some.inj h2
  have htake : s.take (s.takeWhile Char.isDigit).length = s.takeWhile Char.isDigit := by
    conv_lhs => rw [← List.takeWhile_append_dropWhile Char.isDigit s]
    exact List.take_left' (by rw [List.takeWhile_append_dropWhile])
  have hsplit : s = s.takeWhile Char.isDigit
      ++ '=' :: s.drop ((s.takeWhile Char.isDigit).length + 1) := by
    conv_lhs => rw [← List.take_append_drop (s.takeWhile Char.isDigit).length s]
    rw [htake, List.drop_eq_getElem_cons hlt, hget]
  refine ⟨s.takeWhile Char.isDigit, s.drop ((s.takeWhile Char.isDigit).length + 1), h.1,
    fun c hc => (List.mem_takeWhile_imp hc), hsplit, ?_⟩
  unfold removeLeadingDigitsEq
  rw [if_pos h]

theorem stripExtension_cons_of_ne (c : Char) (cs : JSString) (h : c ≠ '.') :
    stripExtension (c :: cs) = c :: stripExtension cs := by
  have hcond : ¬ (c = '.' ∧ cs ≠ [] ∧ '.' ∉ cs) := fun hh => h hh.1
  rw [stripExtension, if_neg hcond]

theorem stripExtension_append_of_no_dot (d s : JSString) (hd : ∀ c ∈ d, c ≠ '.') :
    stripExtension (d ++ s) = d ++ stripExtension s := by
  induction d with
  | nil => rfl
  | cons a t ih =>
    rw [List.cons_append, stripExtension_cons_of_ne a _ (hd a (by simp)),
      ih (fun c hc => hd c (List.mem_cons_of_mem _ hc)), List.cons_append]

theorem stripExtension_append_extension (stem e : JSString) (hne : e ≠ []) (hdot : '.' ∉ e) :
    stripExtension (stem ++ '.' :: e) = stem := by
  induction stem with
  | nil =>
    have hcond : ('.' : Char) = '.' ∧ e ≠ [] ∧ '.' ∉ e := ⟨rfl, hne, hdot⟩
    rw [List.nil_append, stripExtension, if_pos hcond]
  | cons a t ih =>
    have hmem : '.' ∈ t ++ '.' :: e := by simp
    rw [List.cons_append, stripExtension_cons_of_mem a _ hmem, ih]

theorem extension_of_stripExtension_ne (s : JSString) (h : stripExtension s ≠ s) :
    ∃ stem e, e ≠ [] ∧ '.' ∉ e ∧ s = stem ++ '.' :: e := by
  induction s with
  | nil => exact absurd rfl h
  | cons c cs ih =>
    by_cases hcond : c = '.' ∧ cs ≠ [] ∧ '.' ∉ cs
    · exact ⟨[], cs, hcond.2.1, hcond.2.2, by rw [hcond.1]; rfl⟩
    · have hs : stripExtension (c :: cs) = c :: stripExtension cs := by
        rw [stripExtension, if_neg hcond]
      rw [hs] at h
      have hcs : stripExtension cs ≠ cs := fun e => h (by rw [e])
      obtain ⟨stem, e, hne, hdot, hsplit⟩ := ih hcs
      exact ⟨c :: stem, e, hne, hdot, by rw [hsplit]; rfl⟩

theorem stripExtension_twice_ne_iff (s : JSString) :
    stripExtension (stripExtension s) ≠ stripExtension s ↔ HasTwoExtensions s := by
  constructor
  · intro h
    obtain ⟨stem, e1, hne1, hdot1, hsplit1⟩ := extension_of_stripExtension_ne _ h
    have hs : stripExtension s ≠ s := by
      intro e
      rw [e] at h
      exact h e
    obtain ⟨stem2, e2, hne2, hdot2, hsplit2⟩ := extension_of_stripExtension_ne _ hs
    have hstrip : stripExtension s = stem2 := by
      rw [hsplit2]
      exact stripExtension_append_extension stem2 e2 hne2 hdot2
    refine ⟨stem, e1, e2, hne1, hne2, hdot1, hdot2, ?_⟩
    rw [hsplit2, ← hstrip, hsplit1]
    simp
  · rintro ⟨stem, e1, e2, hne1, hne2, hdot1, hdot2, hsplit⟩
    have hs : stripExtension s = stem ++ '.' :: e1 := by
      have hsplit2 : s = (stem ++ '.' :: e1) ++ '.' :: e2 := by rw [hsplit]; simp
      rw [hsplit2]
      exact stripExtension_append_extension _ e2 hne2 hdot2
    rw [hs, stripExtension_append_extension stem e1 hne1 hdot1]
    intro e
    have hlen := congrArg List.length e
    simp at hlen

theorem hasTwoExtensions_append_iff (d s : JSString) (hd : ∀ c ∈ d, c ≠ '.') :
    HasTwoExtensions (d ++ s) ↔ HasTwoExtensions s := by
  rw [← stripExtension_twice_ne_iff, ← stripExtension_twice_ne_iff,
    stripExtension_append_of_no_dot d s hd, stripExtension_append_of_no_dot d _ hd]
  constructor
  · intro h e
    exact h (by rw [e])
  · intro h e
    exact h (List.append_cancel_left e)

theorem isDigit_ne_dot (c : Char) (h : c.isDigit = true) : c ≠ '.' := by
  intro e
  rw [e] at h
  exact absurd h (by decide)

theorem hasTwoExtensions_removeLeadingDigitsEq (x : JSString) :
    HasTwoExtensions (removeLeadingDigitsEq x) ↔ HasTwoExtensions x := by
  by_cases hx : x.takeWhile Char.isDigit ≠ [] ∧
      x.get? (x.takeWhile Char.isDigit).length = some '='
  · obtain ⟨d, rest, _, hdig, hsplit, hrm⟩ := append_of_leadingDigitsEq x hx
    rw [hrm]
    have hsplit2 : x = (d ++ ['=']) ++ rest := by rw [hsplit]; simp
    have hnodot : ∀ c ∈ d ++ ['='], c ≠ '.' := by
      intro c hc
      rcases List.mem_append.mp hc with h1 | h1
      · exact isDigit_ne_dot c (hdig c h1)
      · have : c = '=' := by simpa using h1
        rw [this]
        decide
    conv_rhs => rw [hsplit2]
    exact (hasTwoExtensions_append_iff _ rest hnodot).symm
  · rw [removeLeadingDigitsEq_of_not x hx]

theorem leadingDigitsEq_generateDescription_iff (x : JSString) :
    ((generateDescription x).takeWhile Char.isDigit ≠ [] ∧
      (generateDescription x).get? ((generateDescription x).takeWhile Char.isDigit).length
        = some '=')
      ↔ HasTwoLeadingDigitsEq x := by
  rw [generateDescription_eq_strip]
  constructor
  · intro hz
    have hy := leadingDigitsEq_of_isPrefix _ _ (stripExtension_isPrefix _) hz
    by_cases hx : x.takeWhile Char.isDigit ≠ [] ∧
        x.get? (x.takeWhile Char.isDigit).length = some '='
    · obtain ⟨d1, rest, hne1, hdig1, hsplit1, hrm⟩ := append_of_leadingDigitsEq x hx
      rw [hrm] at hy
      obtain ⟨d2, rest2, hne2, hdig2, hsplit2, _⟩ := append_of_leadingDigitsEq rest hy
      exact ⟨d1, d2, rest2, hne1, hne2, hdig1, hdig2, by rw [hsplit1, hsplit2]⟩
    · rw [removeLeadingDigitsEq_of_not x hx] at hy
      exact absurd hy hx
  · rintro ⟨d1, d2, rest, hne1, hne2, hdig1, hdig2, hsplit⟩
    have hrm : removeLeadingDigitsEq x = d2 ++ '=' :: rest := by
      rw [hsplit]
      exact (leadingDigitsEq_of_append d1 _ hne1 hdig1).2
    have hstrip : stripExtension (d2 ++ '=' :: rest) = d2 ++ '=' :: stripExtension rest := by
      rw [stripExtension_append_of_no_dot d2 _ (fun c hc => isDigit_ne_dot c (hdig2 c hc)),
        stripExtension_cons_of_ne '=' rest (by decide)]
    rw [hrm, hstrip]
    exact (leadingDigitsEq_of_append d2 _ hne2 hdig2).1

theorem generateDescription_fixed_iff (z : JSString) :
    generateDescription z = z
      ↔ ¬ (z.takeWhile Char.isDigit ≠ [] ∧
            z.get? (z.takeWhile Char.isDigit).length = some '=')
          ∧ stripExtension z = z := by
  rw [generateDescription_eq_strip]
  constructor
  · intro h
    have hnot : ¬ (z.takeWhile Char.isDigit ≠ [] ∧
        z.get? (z.takeWhile Char.isDigit).length = some '=') := by
      intro hz
      obtain ⟨d, rest, _, _, hsplit, hrm⟩ := append_of_leadingDigitsEq z hz
      rw [hrm] at h
      have hle : (stripExtension rest).length ≤ rest.length :=
        (stripExtension_isPrefix rest).length_le
      have hlen := congrArg List.length h
      rw [hsplit] at hlen
      simp at hlen
      omega
    rw [removeLeadingDigitsEq_of_not z hnot] at h
    exact ⟨hnot, h⟩
  · rintro ⟨hnot, hstrip⟩
    rw [removeLeadingDigitsEq_of_not z hnot, hstrip]

theorem generateDescription_idempotent_iff_core (x : JSString) :
    generateDescription (generateDescription x) = generateDescription x
      ↔ ¬ HasTwoLeadingDigitsEq x ∧ ¬ HasTwoExtensions x := by
  rw [generateDescription_fixed_iff, leadingDigitsEq_generateDescription_iff]
  have hext : stripExtension (generateDescription x) = generateDescription x
      ↔ ¬ HasTwoExtensions x := by
    rw [generateDescription_eq_strip, ← hasTwoExtensions_removeLeadingDigitsEq x,
      ← stripExtension_twice_ne_iff]
    exact not_not.symm
  rw [hext]

/-- Claim C3: for every file name, `generateDescription` gives the name with (i) its leading
run of ASCII digits and the `=` right after it removed, when the run is non-empty and
followed by `=`, and then (ii) everything from the last `.` on removed, when at least one
character follows that `.`; so `03=sunset.jpg` gives `sunset`, `photo.tiff` gives `photo`
and `noext` stays `noext`. -/
theorem generateDescription_eq_referenceDescription :
    (∀ name : JSString, generateDescription name = referenceDescription name)
    ∧ generateDescription "03=sunset.jpg".toList = "sunset".toList
    ∧ generateDescription "photo.tiff".toList = "photo".toList
    ∧ generateDescription "noext".toList = "noext".toList :=
  ⟨generateDescription_matches_reference, by decide, by decide, by decide⟩

/-- Claim C2, as stated, fails: `1=2=a.jpg` gives `2=a`, which gives `a`; and `a.b.c` gives
`a.b`, which gives `a`. -/
theorem generateDescription_not_idempotent :
    generateDescription "1=2=a.jpg".toList = "2=a".toList
    ∧ generateDescription (generateDescription "1=2=a.jpg".toList) = "a".toList
    ∧ generateDescription (generateDescription "1=2=a.jpg".toList)
        ≠ generateDescription "1=2=a.jpg".toList
    ∧ generateDescription (generateDescription "a.b.c".toList)
        ≠ generateDescription "a.b.c".toList := by
  decide

/-- Claim C2, amended: for every file name `x`, `generateDescription` applied twice gives the
same as applied once if and only if `x` neither starts with two ordering marks in a row
(digits, `=`, digits, `=`) nor ends with two non-empty extensions (`.`, characters other
than `.`, `.`, characters other than `.`); so it does for `03=sunset.jpg`, `a=b=c.jpg`,
`x=1,y=2.png` and `v1.2.`. -/
theorem generateDescription_idempotent_iff :
    (∀ x : JSString,
      generateDescription (generateDescription x) = generateDescription x
        ↔ ¬ HasTwoLeadingDigitsEq x ∧ ¬ HasTwoExtensions x)
    ∧ generateDescription (generateDescription "03=sunset.jpg".toList)
        = generateDescription "03=sunset.jpg".toList
    ∧ generateDescription (generateDescription "a=b=c.jpg".toList)
        = generateDescription "a=b=c.jpg".toList
    ∧ generateDescription (generateDescription "x=1,y=2.png".toList)
        = generateDescription "x=1,y=2.png".toList
    ∧ generateDescription (generateDescription "v1.2.".toList)
        = generateDescription "v1.2.".toList :=
  ⟨generateDescription_idempotent_iff_core, by decide, by decide, by decide, by decide⟩

/-- Witness for claim C2: `1=2=a.jpg` starts with two ordering marks and `a.b.c` ends with two
extensions, so for neither of them the second application gives the same as the first. -/
theorem generateDescription_idempotent_iff_witness :
    HasTwoLeadingDigitsEq "1=2=a.jpg".toList
    ∧ HasTwoExtensions "a.b.c".toList
    ∧ generateDescription (generateDescription "1=2=a.jpg".toList)
        ≠ generateDescription "1=2=a.jpg".toList
    ∧ generateDescription (generateDescription "a.b.c".toList)
        ≠ generateDescription "a.b.c".toList := by
  have h1 : HasTwoLeadingDigitsEq "1=2=a.jpg".toList :=
    ⟨['1'], ['2'], "a.jpg".toList, by decide, by decide, by decide, by decide, by decide⟩
  have h2 : HasTwoExtensions "a.b.c".toList :=
    ⟨['a'], ['b'], ['c'], by decide, by decide, by decide, by decide, by decide⟩
  refine ⟨h1, h2, ?_, ?_⟩
  · intro h
    exact ((generateDescription_idempotent_iff.1 _).mp h).1 h1
  · intro h
    exact ((generateDescription_idempotent_iff.1 _).mp h).2 h2

/-! ## Lemmas on `formatAttributeName` -/

theorem upperCaseWordStarts_cons (prev : Option Char) (c : Char) (cs : JSString) :
    upperCaseWordStarts prev (c :: cs)
      = (if ((match prev with
            | some p => isWordChar p
            | none => false) != isWordChar c) && isWordChar c then c.toUpper else c)
          :: upperCaseWordStarts (some c) cs := rfl

theorem boundary_and (a b : Bool) : ((b != a) && a) = (a && !b) := by
  cases a <;> cases b <;> rfl

theorem boundary_and_not (a b : Bool) : (((!b) != (!a)) && !a) = (b && !a) := by
  cases a <;> cases b <;> rfl

theorem isWordChar_of_ne_underscore (c : Char) (h : c ≠ '_') : isWordChar c = c.isAlphanum := by
  simp [isWordChar, h]

theorem not_mem_replaceUnderscores (s : JSString) : '_' ∉ replaceUnderscores s := by
  unfold replaceUnderscores
  intro h
  obtain ⟨a, _, ha⟩ := List.mem_map.mp h
  by_cases hu : a = '_'
  · rw [if_pos hu] at ha
    exact absurd ha (by decide)
  · rw [if_neg hu] at ha
    exact hu ha

theorem upperCaseWordStarts_eq_zipWith (t : JSString) (hno : '_' ∉ t) :
    ∀ (prev : Option Char), prev ≠ some '_' →
      upperCaseWordStarts prev t
        = List.zipWith
            (fun (before : Option Char) (c : Char) =>
              if c.isAlphanum && !(match before with
                | some p => p.isAlphanum
                | none => false) then c.toUpper else c)
            (prev :: t.map some) t := by
  induction t with
  | nil => intro prev _; rfl
  | cons c cs ih =>
    intro prev hprev
    have hc : c ≠ '_' := fun e => hno (by simp [e])
    have hcs : '_' ∉ cs := fun e => hno (List.mem_cons_of_mem _ e)
    have hnext := ih hcs (some c) (by simpa using hc)
    rw [upperCaseWordStarts_cons, hnext, List.map_cons, List.zipWith_cons_cons]
    congr 1
    rw [isWordChar_of_ne_underscore c hc]
    cases prev with
    | none => rw [boundary_and]
    | some p =>
      have hp : p ≠ '_' := fun e => hprev (by rw [e])
      simp only [isWordChar_of_ne_underscore p hp]
      rw [boundary_and]

theorem formatAttributeName_positions (key : JSString) :
    formatAttributeName key = upperCaseAfterNonAlphanum (replaceUnderscores key) := by
  unfold formatAttributeName upperCaseAfterNonAlphanum
  exact upperCaseWordStarts_eq_zipWith _ (not_mem_replaceUnderscores key) none (by simp)

theorem isAlphanum_of_isWhitespace (c : Char) (h : c.isWhitespace = true) :
    c.isAlphanum = false := by
  simp only [Char.isWhitespace, Bool.or_eq_true, decide_eq_true_eq] at h
  rcases h with ((h | h) | h) | h <;> subst h <;> decide

theorem upperCaseWordStarts_eq_capitalizeWords (t : JSString)
    (halpha : ∀ c ∈ t, c.isAlphanum = true ∨ c.isWhitespace = true) :
    ∀ (prev : Option Char),
      (∀ p, prev = some p → p.isAlphanum = true ∨ p.isWhitespace = true) →
      upperCaseWordStarts prev t
        = capitalizeWords (match prev with
            | some p => p.isWhitespace
            | none => true) t := by
  induction t with
  | nil => intro prev _; rfl
  | cons c cs ih =>
    intro prev hprev
    have hc := halpha c (by simp)
    have hcs : ∀ d ∈ cs, d.isAlphanum = true ∨ d.isWhitespace = true :=
      fun d hd => halpha d (List.mem_cons_of_mem _ hd)
    have hnext := ih hcs (some c) (by intro p hp; cases hp; exact hc)
    have hword : ∀ d : Char, (d.isAlphanum = true ∨ d.isWhitespace = true) →
        isWordChar d = !d.isWhitespace := by
      intro d hd
      rcases hd with hd | hd
      · have hws : d.isWhitespace = false := by
          cases hw : d.isWhitespace with
          | false => rfl
          | true => rw [isAlphanum_of_isWhitespace d hw] at hd; exact absurd hd (by decide)
        simp [isWordChar, hd, hws]
      · have hne : d ≠ '_' := by
          intro e; rw [e] at hd; exact absurd hd (by decide)
        simp [isWordChar, hne, hd, isAlphanum_of_isWhitespace d hd]
    rw [upperCaseWordStarts_cons, capitalizeWords, hnext]
    congr 1
    rw [hword c hc]
    cases prev with
    | none =>
      have hb := boundary_and_not c.isWhitespace true
      simp only [Bool.not_true] at hb
      simp only [hb]
    | some p =>
      simp only [hword p (hprev p rfl)]
      rw [boundary_and_not]

theorem formatAttributeName_on_words (key : JSString)
    (h : ∀ c ∈ key, c.isAlphanum = true ∨ c = '_' ∨ c.isWhitespace = true) :
    formatAttributeName key = referenceFormat key := by
  unfold formatAttributeName referenceFormat
  apply upperCaseWordStarts_eq_capitalizeWords _ _ none (by simp)
  intro c hc
  unfold replaceUnderscores at hc
  obtain ⟨a, ha, hac⟩ := List.mem_map.mp hc
  by_cases hu : a = '_'
  · rw [if_pos hu] at hac
    rw [← hac]
    exact Or.inr (by decide)
  · rw [if_neg hu] at hac
    rw [← hac]
    rcases h a ha with h1 | h1 | h1
    · exact Or.inl h1
    · exact absurd h1 hu
    · exact Or.inr h1

/-- Claim C4, as stated, fails: in `a-b` the code upper-cases the `b` after the hyphen, which
does not start a whitespace-delimited word. -/
theorem formatAttributeName_not_referenceFormat :
    formatAttributeName "a-b".toList = "A-B".toList
    ∧ referenceFormat "a-b".toList = "A-b".toList
    ∧ formatAttributeName "a-b".toList ≠ referenceFormat "a-b".toList := by
  decide

/-- Claim C4, amended: for every key, `formatAttributeName` gives the key with every
underscore replaced by a space and then every ASCII letter or digit that is first in the
string or follows a character that is not an ASCII letter or digit upper-cased, every
other character unchanged; for a key made only of ASCII letters, digits, underscores and
whitespace this is the upper-casing of the first letter of every whitespace-delimited
word; so `project_owner` gives `Project Owner`, `id` gives `Id` and the empty key gives
the empty label. -/
theorem formatAttributeName_eq_upperCaseAfterNonAlphanum :
    (∀ key : JSString,
      formatAttributeName key = upperCaseAfterNonAlphanum (replaceUnderscores key))
    ∧ (∀ key : JSString,
        (∀ c ∈ key, c.isAlphanum = true ∨ c = '_' ∨ c.isWhitespace = true) →
          formatAttributeName key = referenceFormat key)
    ∧ formatAttributeName "project_owner".toList = "Project Owner".toList
    ∧ formatAttributeName "id".toList = "Id".toList
    ∧ formatAttributeName [] = [] :=
  ⟨formatAttributeName_positions, formatAttributeName_on_words, by decide, by decide,
    by decide⟩

/-- Witness for claim C4: `project_owner` is made of ASCII letters and an underscore. -/
theorem formatAttributeName_eq_upperCaseAfterNonAlphanum_witness :
    (∀ c ∈ "project_owner".toList, c.isAlphanum = true ∨ c = '_' ∨ c.isWhitespace = true)
    ∧ formatAttributeName "project_owner".toList = referenceFormat "project_owner".toList :=
  ⟨by decide,
    formatAttributeName_eq_upperCaseAfterNonAlphanum.2.1 "project_owner".toList (by decide)⟩

/-! ## Lemmas on the page search -/

theorem frameLoop_eq_true (title : JSString) (frames : List TextFrame) :
    frameLoop (some title) frames = true ↔ ∃ frame ∈ frames, frame.contents = title := by
  induction frames with
  | nil => simp [frameLoop]
  | cons frame rest ih =>
    rw [frameLoop]
    by_cases h : some frame.contents = some title
    · rw [if_pos h]
      exact ⟨fun _ => ⟨frame, by simp, Option.some.inj h⟩, fun _ => rfl⟩
    · rw [if_neg h, ih]
      have hne : frame.contents ≠ title := fun e => h (by rw [e])
      constructor
      · rintro ⟨g, hg, hgt⟩
        exact ⟨g, List.mem_cons_of_mem _ hg, hgt⟩
      · rintro ⟨g, hg, hgt⟩
        rcases List.mem_cons.mp hg with h1 | h1
        · exact absurd (h1 ▸ hgt) hne
        · exact ⟨g, h1, hgt⟩

theorem pageLoop_eq_none (title : Option JSString) (pages : List Page) :
    ∀ n, pageLoop title n pages = none
      ↔ ∀ page ∈ pages, frameLoop title page.textFrames = false := by
  induction pages with
  | nil => intro n; simp [pageLoop]
  | cons page rest ih =>
    intro n
    rw [pageLoop]
    by_cases h : frameLoop title page.textFrames = true
    · rw [if_pos h]
      constructor
      · intro hh; exact Option.noConfusion hh
      · intro hh
        have := hh page (by simp)
        rw [h] at this
        exact Bool.noConfusion this
    · rw [if_neg h, ih]
      have hf : frameLoop title page.textFrames = false := by simpa using h
      constructor
      · intro hh p hp
        rcases List.mem_cons.mp hp with h1 | h1
        · rw [h1]; exact hf
        · exact hh p h1
      · intro hh p hp
        exact hh p (List.mem_cons_of_mem _ hp)

theorem pageLoop_eq_some (title : Option JSString) (pages : List Page) :
    ∀ n i, pageLoop title n pages = some i
      ↔ ∃ k page, i = n + k ∧ pages.get? k = some page
          ∧ frameLoop title page.textFrames = true
          ∧ ∀ j earlier, j < k → pages.get? j = some earlier →
              frameLoop title earlier.textFrames = false := by
  induction pages with
  | nil => intro n i; simp [pageLoop]
  | cons page rest ih =>
    intro n i
    rw [pageLoop]
    by_cases h : frameLoop title page.textFrames = true
    · rw [if_pos h]
      constructor
      · intro hh
        refine ⟨0, page, ?_, rfl, h, ?_⟩
        · exact (Option.some.inj hh).symm
        · intro j _ hj; exact absurd hj (Nat.not_lt_zero j)
      · rintro ⟨k, p, hi, hget, hp, hearlier⟩
        cases k with
        | zero => rw [hi]; rfl
        | succ k =>
          have := hearlier 0 page (Nat.succ_pos k) rfl
          rw [h] at this
          exact Bool.noConfusion this
    · rw [if_neg h, ih]
      have hf : frameLoop title page.textFrames = false := by simpa using h
      constructor
      · rintro ⟨k, p, hi, hget, hp, hearlier⟩
        refine ⟨k + 1, p, by omega, by simpa using hget, hp, ?_⟩
        intro j earlier hj hje
        cases j with
        | zero =>
          have : page = earlier := by simpa using hje
          rw [← this]; exact hf
        | succ j => exact hearlier j earlier (by omega) (by simpa using hje)
      · rintro ⟨k, p, hi, hget, hp, hearlier⟩
        cases k with
        | zero =>
          have : page = p := by simpa using hget
          rw [← this] at hp
          exact absurd hp h
        | succ k =>
          refine ⟨k, p, by omega, by simpa using hget, hp, ?_⟩
          intro j earlier hj hje
          exact hearlier (j + 1) earlier (by omega) (by simpa using hje)

theorem frameLoop_eq_false (title : JSString) (frames : List TextFrame) :
    frameLoop (some title) frames = false ↔ ∀ frame ∈ frames, frame.contents ≠ title := by
  have h := frameLoop_eq_true title frames
  constructor
  · intro hf frame hmem hc
    have := h.mpr ⟨frame, hmem, hc⟩
    rw [hf] at this
    exact Bool.noConfusion this
  · intro hall
    cases hb : frameLoop (some title) frames with
    | false => rfl
    | true =>
      obtain ⟨frame, hmem, hc⟩ := h.mp hb
      exact absurd hc (hall frame hmem)

/-- Claim C7: `findPageWithTitle` gives "not found" exactly when no page has a text frame
whose contents equals the title; otherwise it gives the page of smallest index that has
such a frame; and when it gives "not found", `createOrUpdateProjectLayout` leaves the
document as it is. -/
theorem findPageWithTitle_first_match (host : Host) (doc : Document) (title : JSString) :
    (findPageWithTitle doc (some title) = none
      ↔ ∀ page ∈ doc.pages, ∀ frame ∈ page.textFrames, frame.contents ≠ title)
    ∧ (∀ i, findPageWithTitle doc (some title) = some i
      ↔ ∃ page, doc.pages.get? i = some page
          ∧ (∃ frame ∈ page.textFrames, frame.contents = title)
          ∧ ∀ j earlier, j < i → doc.pages.get? j = some earlier →
              ∀ frame ∈ earlier.textFrames, frame.contents ≠ title)
    ∧ (∀ project : JSObject,
        findPageWithTitle doc (getProperty project "title".toList) = none →
          createOrUpdateProjectLayout host doc project = doc) := by
  refine ⟨?_, ?_, ?_⟩
  · unfold findPageWithTitle
    rw [pageLoop_eq_none]
    constructor
    · intro h page hp
      exact (frameLoop_eq_false title _).mp (h page hp)
    · intro h page hp
      exact (frameLoop_eq_false title _).mpr (h page hp)
  · intro i
    unfold findPageWithTitle
    rw [pageLoop_eq_some]
    constructor
    · rintro ⟨k, page, hi, hget, hp, hearlier⟩
      have hik : i = k := by omega
      subst hik
      refine ⟨page, hget, (frameLoop_eq_true title _).mp hp, ?_⟩
      intro j earlier hj hje
      exact (frameLoop_eq_false title _).mp (hearlier j earlier hj hje)
    · rintro ⟨page, hget, hp, hearlier⟩
      refine ⟨i, page, by omega, hget, (frameLoop_eq_true title _).mpr hp, ?_⟩
      intro j earlier hj hje
      exact (frameLoop_eq_false title _).mpr (hearlier j earlier hj hje)
  · intro project h
    unfold createOrUpdateProjectLayout
    rw [h]

/-- Witness for claim C7: in the example document the title `Alpha` is found on the page of
index 1, the first of the two pages that hold it, `alpha` on the page of index 0 not
matching; and a record whose title is on no page leaves the document as it is. -/
theorem findPageWithTitle_first_match_witness :
    findPageWithTitle exampleDocument (some "Alpha".toList) = some 1
    ∧ createOrUpdateProjectLayout exampleHost exampleDocument
        [("title".toList, some "Gamma".toList), ("owner".toList, some "Jane".toList)]
      = exampleDocument :=
  ⟨by decide,
    (findPageWithTitle_first_match exampleHost exampleDocument "Gamma".toList).2.2
      [("title".toList, some "Gamma".toList), ("owner".toList, some "Jane".toList)]
      (by decide)⟩

/-- Claim C8: `isInSkipAttributes(key)` is true exactly when the key is one of `title`, `id`,
`locked`, `page`, `type`, compared exactly; so `title` is skipped, `Title` and `budget`
are not. -/
theorem isInSkipAttributes_iff (key : JSString) :
    (isInSkipAttributes key = true
      ↔ key = "title".toList ∨ key = "id".toList ∨ key = "locked".toList
          ∨ key = "page".toList ∨ key = "type".toList)
    ∧ isInSkipAttributes "title".toList = true
    ∧ isInSkipAttributes "Title".toList = false
    ∧ isInSkipAttributes "budget".toList = false := by
  refine ⟨?_, by decide, by decide, by decide⟩
  unfold isInSkipAttributes skipAttributes
  simp only [isInSkipAttributesFrom]
  by_cases h1 : key = "title".toList
  · simp [h1]
  · by_cases h2 : key = "id".toList
    · simp [h2]
    · by_cases h3 : key = "locked".toList
      · simp [h3]
      · by_cases h4 : key = "page".toList
        · simp [h4]
        · by_cases h5 : key = "type".toList
          · simp [h5]
          · simp [h1, h2, h3, h4, h5]

/-! ## Theorems on the layout arithmetic -/

theorem projectLayout_descriptionFrames (host : Host) (project : JSObject)
    (h : projectDescription host project ≠ []) :
    (projectLayout host project).descriptionFrames
      = some
          (⟨scriptedLayer, descriptionBounds (estimatedHeight host project),
              projectDescription host project⟩,
            ⟨scriptedLayer, descriptionBounds2 (estimatedHeight host project), []⟩) := by
  unfold projectLayout
  simp only [h, ne_eq, not_false_eq_true, if_true]

theorem projectLayout_frame (host : Host) (project : JSObject)
    (h : projectDescription host project ≠ []) :
    (projectLayout host project).frame
      = ⟨(attributeFrame host project).itemLayer,
          ⟨columnTop (estimatedHeight host project) - yOffset
              - ((attributeFrame host project).geometricBounds.bottom
                  - (attributeFrame host project).geometricBounds.top),
            xPosition, columnTop (estimatedHeight host project) - yOffset, xPosition + 8⟩,
          (attributeFrame host project).contents⟩ := by
  unfold projectLayout
  simp only [h, ne_eq, not_false_eq_true, if_true]

theorem exampleProject_description :
    projectDescription exampleHost exampleProject = "A long description.".toList := by
  decide

theorem exampleProject_estimatedHeight : estimatedHeight exampleHost exampleProject = 4 := by
  unfold estimatedHeight
  rw [exampleProject_description]
  simp only [exampleHost, totalLinesHeight]
  norm_num

/-- Claim C5: for every estimated content height `H` the two description columns are
`[B - (H/2 + 0.25), X, B, X + W]` and `[B - (H/2 + 0.25), X + W, B, X + 2W]` with
`B = 10.5`, `X = 0.25`, `W = 4`: same top, bottom `B`, width `W` each, no gap between
them; they are the bounds of the two description frames that `createProjectLayout` makes
when the description is non-empty; and for `H = 4` the column height is 2.25, the column
top 8.25, and the columns are `[8.25, 0.25, 10.5, 4.25]` and `[8.25, 4.25, 10.5, 8.25]`. -/
theorem descriptionColumns_formula (H : ℚ) :
    descriptionBounds H = ⟨10.5 - (H / 2 + 0.25), 0.25, 10.5, 0.25 + 4⟩
    ∧ descriptionBounds2 H = ⟨10.5 - (H / 2 + 0.25), 0.25 + 4, 10.5, 0.25 + 2 * 4⟩
    ∧ (descriptionBounds H).top = (descriptionBounds2 H).top
    ∧ (descriptionBounds H).bottom = 10.5
    ∧ (descriptionBounds2 H).bottom = 10.5
    ∧ (descriptionBounds H).right - (descriptionBounds H).left = 4
    ∧ (descriptionBounds2 H).right - (descriptionBounds2 H).left = 4
    ∧ (descriptionBounds H).right = (descriptionBounds2 H).left
    ∧ (∀ (host : Host) (project : JSObject),
        estimatedHeight host project = H → projectDescription host project ≠ [] →
        ∃ first second, (projectLayout host project).descriptionFrames = some (first, second)
          ∧ first.geometricBounds = descriptionBounds H
          ∧ second.geometricBounds = descriptionBounds2 H)
    ∧ columnHeight 4 = 2.25
    ∧ columnTop 4 = 8.25
    ∧ descriptionBounds 4 = ⟨8.25, 0.25, 10.5, 4.25⟩
    ∧ descriptionBounds2 4 = ⟨8.25, 4.25, 10.5, 8.25⟩ := by
  refine ⟨?_, ?_, rfl, rfl, rfl, ?_, ?_, ?_, ?_, ?_, ?_, ?_, ?_⟩
  · simp only [descriptionBounds, columnTop, columnHeight, columnBottom, xPosition, colWidth]
  · simp only [descriptionBounds2, columnTop, columnHeight, columnBottom, xPosition, colWidth,
      Bounds.mk.injEq]
    refine ⟨trivial, ?_, trivial, ?_⟩ <;> norm_num
  · simp only [descriptionBounds, xPosition, colWidth]; norm_num
  · simp only [descriptionBounds2, xPosition, colWidth]; norm_num
  · simp only [descriptionBounds, descriptionBounds2, xPosition, colWidth]; norm_num
  · intro host project hH hne
    rw [projectLayout_descriptionFrames host project hne, hH]
    exact ⟨_, _, rfl, rfl, rfl⟩
  · simp only [columnHeight]; norm_num
  · simp only [columnTop, columnHeight, columnBottom]; norm_num
  · simp only [descriptionBounds, columnTop, columnHeight, columnBottom, xPosition, colWidth,
      Bounds.mk.injEq]
    refine ⟨?_, trivial, trivial, ?_⟩ <;> norm_num
  · simp only [descriptionBounds2, columnTop, columnHeight, columnBottom, xPosition, colWidth,
      Bounds.mk.injEq]
    refine ⟨?_, ?_, trivial, ?_⟩ <;> norm_num

/-- Witness for claim C5: for the example record and host the description is non-empty, its
three lines have the baselines 0, 2 and 4, so `H = 4`, and the two frames made have the
bounds of the formula. -/
theorem descriptionColumns_formula_witness :
    ∃ first second,
      (projectLayout exampleHost exampleProject).descriptionFrames = some (first, second)
      ∧ first.geometricBounds = descriptionBounds 4
      ∧ second.geometricBounds = descriptionBounds2 4 :=
  (descriptionColumns_formula 4).2.2.2.2.2.2.2.2.1 exampleHost exampleProject
    exampleProject_estimatedHeight (by decide)


/-- Claim C6: the height estimate is 0 for no line, ascent plus descent of the line for
exactly one line, and the baseline of the last line minus the baseline of the first line
for two or more lines; so it is 0 for no line, 10 for one line of ascent 8 and descent 2,
and 30 for three lines with first baseline 0 and last baseline 30. -/
theorem totalLinesHeight_cases :
    totalLinesHeight [] = 0
    ∧ (∀ line : Line, totalLinesHeight [line] = line.ascent + line.descent)
    ∧ (∀ (first last : Line) (middle : List Line),
        totalLinesHeight (first :: (middle ++ [last])) = last.baseline - first.baseline)
    ∧ (∀ baseline : ℚ, totalLinesHeight [⟨baseline, 8, 2⟩] = 10)
    ∧ (∀ (middle : Line) (a1 d1 a3 d3 : ℚ),
        totalLinesHeight [⟨0, a1, d1⟩, middle, ⟨30, a3, d3⟩] = 30) := by
  have hmany : ∀ (first last : Line) (middle : List Line),
      totalLinesHeight (first :: (middle ++ [last])) = last.baseline - first.baseline := by
    intro first last middle
    have hlen : (first :: (middle ++ [last])).length > 1 := by simp
    unfold totalLinesHeight
    rw [dif_pos hlen]
    have hlast : (first :: (middle ++ [last])).get
        ⟨(first :: (middle ++ [last])).length - 1, by omega⟩ = last := by
      have h1 : (first :: (middle ++ [last])).length - 1 = (first :: middle).length := by simp
      simp only [List.get_eq_getElem, h1, List.length_cons, List.getElem_cons_succ]
      simp
    rw [hlast]
    rfl
  refine ⟨rfl, ?_, hmany, ?_, ?_⟩
  · intro line; rfl
  · intro baseline
    show (8 : ℚ) + 2 = 10
    norm_num
  · intro middle a1 d1 a3 d3
    have h := hmany ⟨0, a1, d1⟩ ⟨30, a3, d3⟩ [middle]
    simp only [List.singleton_append] at h
    rw [h]
    norm_num

/-! ## Lemmas on rounded arithmetic -/

theorem roundHalfEven_error (x : ℚ) : |(roundHalfEven x : ℚ) - x| ≤ 1 / 2 := by
  have h0 : (0 : ℚ) ≤ x - ⌊x⌋ := sub_nonneg.mpr (Int.floor_le x)
  have h1 : x - ⌊x⌋ < 1 := by
    have := Int.lt_floor_add_one x
    linarith
  unfold roundHalfEven
  split_ifs with ha hb hc
  · rw [abs_le]; constructor <;> linarith
  · rw [abs_le]; push_cast; constructor <;> linarith
  · rw [abs_le]; constructor <;> linarith
  · rw [abs_le]; push_cast; constructor <;> linarith

theorem roundHalfEven_of_lt (x : ℚ) (n : ℤ) (h : |x - n| < 1 / 2) : roundHalfEven x = n := by
  rw [abs_lt] at h
  by_cases hx : (n : ℚ) ≤ x
  · have hfloor : ⌊x⌋ = n := Int.floor_eq_iff.mpr ⟨hx, by linarith⟩
    unfold roundHalfEven
    rw [hfloor, if_pos (by linarith)]
  · have hfloor : ⌊x⌋ = n - 1 := by
      apply Int.floor_eq_iff.mpr
      push_cast
      constructor <;> linarith
    unfold roundHalfEven
    rw [hfloor]
    have h1 : ¬ (x - ((n - 1 : ℤ) : ℚ) < 1 / 2) := by push_cast; linarith
    have h2 : (1 : ℚ) / 2 < x - ((n - 1 : ℤ) : ℚ) := by push_cast; linarith
    rw [if_neg h1, if_pos h2]
    omega

theorem log_two_of_bounds (q : ℚ) (e : ℤ) (hq : 0 < q) (h1 : (2 : ℚ) ^ e ≤ q)
    (h2 : q < (2 : ℚ) ^ (e + 1)) : Int.log 2 q = e := by
  have hle : e ≤ Int.log 2 q := by
    apply (Int.zpow_le_iff_le_log (by norm_num) hq).mp
    exact_mod_cast h1
  have hlt : Int.log 2 q < e + 1 := by
    apply (Int.lt_zpow_iff_log_lt (by norm_num) hq).mp
    exact_mod_cast h2
  omega

theorem roundBinary64_of_bounds (q : ℚ) (e : ℤ) (hq : 0 < q) (h1 : (2 : ℚ) ^ e ≤ q)
    (h2 : q < (2 : ℚ) ^ (e + 1)) :
    roundBinary64 q = roundHalfEven (q / 2 ^ (e - 52)) * 2 ^ (e - 52) := by
  unfold roundBinary64
  rw [if_neg (ne_of_gt hq), abs_of_pos hq, log_two_of_bounds q e hq h1 h2]

theorem roundBinary64_error (q : ℚ) : |roundBinary64 q - q| ≤ 2 ^ (-53 : ℤ) * |q| := by
  by_cases hq : q = 0
  · simp [roundBinary64, hq]
  · have habs : 0 < |q| := abs_pos.mpr hq
    have hulp : (0 : ℚ) < 2 ^ (Int.log 2 |q| - 52) := zpow_pos (by norm_num) _
    have hlog : (2 : ℚ) ^ Int.log 2 |q| ≤ |q| := by
      have := Int.zpow_log_le_self (b := 2) (r := |q|) (by norm_num) habs
      exact_mod_cast this
    unfold roundBinary64
    rw [if_neg hq]
    have hround := roundHalfEven_error (q / 2 ^ (Int.log 2 |q| - 52))
    have hrewrite : (roundHalfEven (q / 2 ^ (Int.log 2 |q| - 52)) : ℚ)
          * 2 ^ (Int.log 2 |q| - 52) - q
        = ((roundHalfEven (q / 2 ^ (Int.log 2 |q| - 52)) : ℚ)
            - q / 2 ^ (Int.log 2 |q| - 52)) * 2 ^ (Int.log 2 |q| - 52) := by
      field_simp
    rw [hrewrite, abs_mul, abs_of_pos hulp]
    have hsplit : (2 : ℚ) ^ (Int.log 2 |q| - 52)
        = 2 ^ (Int.log 2 |q|) * 2 ^ (-52 : ℤ) := by
      rw [← zpow_add₀ (by norm_num : (2 : ℚ) ≠ 0)]
      congr 1
    have h53 : (2 : ℚ) ^ (-53 : ℤ) = 1 / 2 * 2 ^ (-52 : ℤ) := by norm_num
    have hpow : (0 : ℚ) < 2 ^ (-52 : ℤ) := zpow_pos (by norm_num) _
    calc |(roundHalfEven (q / 2 ^ (Int.log 2 |q| - 52)) : ℚ)
            - q / 2 ^ (Int.log 2 |q| - 52)| * 2 ^ (Int.log 2 |q| - 52)
        ≤ 1 / 2 * 2 ^ (Int.log 2 |q| - 52) :=
          mul_le_mul_of_nonneg_right hround (le_of_lt hulp)
      _ = 2 ^ (-53 : ℤ) * 2 ^ (Int.log 2 |q|) := by rw [hsplit, h53]; ring
      _ ≤ 2 ^ (-53 : ℤ) * |q| :=
          mul_le_mul_of_nonneg_left hlog (le_of_lt (zpow_pos (by norm_num) _))

theorem roundBinary64_exact (q : ℚ) (e n : ℤ) (hq : 0 < q) (h1 : (2 : ℚ) ^ e ≤ q)
    (h2 : q < (2 : ℚ) ^ (e + 1)) (hx : q = n * 2 ^ (e - 52)) : roundBinary64 q = q := by
  have hulp : (2 : ℚ) ^ (e - 52) ≠ 0 := zpow_ne_zero _ (by norm_num)
  have hdiv : q / 2 ^ (e - 52) = (n : ℚ) := by
    rw [hx]
    field_simp
  rw [roundBinary64_of_bounds q e hq h1 h2, hdiv,
    roundHalfEven_of_lt (n : ℚ) n (by norm_num), ← hx]

theorem roundBinary64_tie_odd (q : ℚ) (e n : ℤ) (hq : 0 < q) (h1 : (2 : ℚ) ^ e ≤ q)
    (h2 : q < (2 : ℚ) ^ (e + 1)) (hn : n % 2 = 1) (hx : q = ((n : ℚ) + 1 / 2) * 2 ^ (e - 52)) :
    roundBinary64 q = ((n : ℚ) + 1) * 2 ^ (e - 52) := by
  have hulp : (2 : ℚ) ^ (e - 52) ≠ 0 := zpow_ne_zero _ (by norm_num)
  have hdiv : q / 2 ^ (e - 52) = (n : ℚ) + 1 / 2 := by
    rw [hx]
    field_simp
    ring
  have hfloor : ⌊(n : ℚ) + 1 / 2⌋ = n := by
    apply Int.floor_eq_iff.mpr
    constructor <;> linarith
  have hround : roundHalfEven ((n : ℚ) + 1 / 2) = n + 1 := by
    unfold roundHalfEven
    rw [hfloor]
    have g1 : ¬ ((n : ℚ) + 1 / 2 - n < 1 / 2) := by linarith
    have g2 : ¬ ((1 : ℚ) / 2 < (n : ℚ) + 1 / 2 - n) := by linarith
    have g3 : ¬ (n % 2 = 0) := by omega
    rw [if_neg g1, if_neg g2, if_neg g3]
  rw [roundBinary64_of_bounds q e hq h1 h2, hdiv, hround]
  push_cast
  rfl

theorem exampleBounds_frameHeight :
    frameHeightRounded roundBinary64 exampleBounds = 788129934789837 / 2 ^ 50 := by
  have hq : exampleBounds.bottom - exampleBounds.top = 788129934789837 / 2 ^ 50 := by
    simp only [exampleBounds]
    norm_num
  unfold frameHeightRounded
  rw [hq]
  exact roundBinary64_exact _ (-1) 6305039478318696 (by norm_num) (by norm_num) (by norm_num)
    (by norm_num)

theorem example_frameTop : frameTopRounded roundBinary64 1 = 149 / 16 := by
  have h1 : roundBinary64 (1 / 2) = 1 / 2 :=
    roundBinary64_exact _ (-1) 4503599627370496 (by norm_num) (by norm_num) (by norm_num)
      (by norm_num)
  have h2 : roundBinary64 (1 / 2 + 0.25) = 3 / 4 := by
    have hq : (1 : ℚ) / 2 + 0.25 = 3 / 4 := by norm_num
    rw [hq]
    exact roundBinary64_exact _ (-1) 6755399441055744 (by norm_num) (by norm_num)
      (by norm_num) (by norm_num)
  have h3 : roundBinary64 (10.5 - 3 / 4) = 39 / 4 := by
    have hq : (10.5 : ℚ) - 3 / 4 = 39 / 4 := by norm_num
    rw [hq]
    exact roundBinary64_exact _ 3 5488762045857792 (by norm_num) (by norm_num)
      (by norm_num) (by norm_num)
  have h4 : roundBinary64 (39 / 4 - 0.4375) = 149 / 16 := by
    have hq : (39 : ℚ) / 4 - 0.4375 = 149 / 16 := by norm_num
    rw [hq]
    exact roundBinary64_exact _ 3 5242471441235968 (by norm_num) (by norm_num)
      (by norm_num) (by norm_num)
  unfold frameTopRounded columnTopRounded columnHeightRounded columnBottom yOffset
  rw [h1, h2, h3, h4]

theorem example_repositionedBounds :
    repositionedBounds roundBinary64 1 exampleBounds
      = ⟨4848406473841050 / 2 ^ 49, 0.25, 149 / 16, 8.25⟩ := by
  have htop : roundBinary64 (149 / 16 - 788129934789837 / 2 ^ 50)
      = 4848406473841050 / 2 ^ 49 := by
    rw [roundBinary64_tie_odd _ 3 4848406473841049 (by norm_num) (by norm_num) (by norm_num)
      (by decide) (by norm_num)]
    norm_num
  have hright : roundBinary64 (xPosition + 8) = 8.25 := by
    have hq : xPosition + 8 = (33 : ℚ) / 4 := by unfold xPosition; norm_num
    rw [hq, roundBinary64_exact _ 3 4644337115725824 (by norm_num) (by norm_num)
      (by norm_num) (by norm_num)]
    norm_num
  unfold repositionedBounds
  rw [example_frameTop, exampleBounds_frameHeight, htop, hright]
  rfl

theorem repositionedBounds_exact (host : Host) (project : JSObject)
    (h : projectDescription host project ≠ []) :
    (projectLayout host project).frame.geometricBounds
      = repositionedBounds (fun x => x) (estimatedHeight host project)
          (attributeFrame host project).geometricBounds := by
  rw [projectLayout_frame host project h]
  rfl

/-- Claim C9, as stated, fails in the arithmetic of the script: for an attribute frame from
6 to the number nearest 6.7 and `H = 1`, the height before the move is
788129934789837 / 2^50 (0.7000000000000002), the frame is moved to the top
4848406473841050 / 2^49 and the bottom 9.3125, and its height is then
788129934789836 / 2^50 (0.6999999999999993). -/
theorem attributeFrame_height_not_kept :
    roundBinary64 6.7 = exampleBounds.bottom
    ∧ frameHeightRounded roundBinary64 exampleBounds = 788129934789837 / 2 ^ 50
    ∧ repositionedBounds roundBinary64 1 exampleBounds
        = ⟨4848406473841050 / 2 ^ 49, 0.25, 149 / 16, 8.25⟩
    ∧ (repositionedBounds roundBinary64 1 exampleBounds).bottom
        - (repositionedBounds roundBinary64 1 exampleBounds).top = 788129934789836 / 2 ^ 50
    ∧ (repositionedBounds roundBinary64 1 exampleBounds).bottom
        - (repositionedBounds roundBinary64 1 exampleBounds).top
      ≠ frameHeightRounded roundBinary64 exampleBounds := by
  have hbottom : roundBinary64 6.7 = exampleBounds.bottom := by
    rw [roundBinary64_of_bounds _ 2 (by norm_num) (by norm_num) (by norm_num),
      roundHalfEven_of_lt _ 7543529375845581 (by rw [abs_lt]; constructor <;> norm_num)]
    simp only [exampleBounds]
    norm_num
  refine ⟨hbottom, exampleBounds_frameHeight, example_repositionedBounds, ?_, ?_⟩
  · rw [example_repositionedBounds]
    norm_num
  · rw [example_repositionedBounds, exampleBounds_frameHeight]
    norm_num

/-- Claim C9, amended: for every estimated content height `H` and every attribute frame, with
`fl` the rounding of the arithmetic and `u` a bound of its relative error (`u = 2^-53` for
the numbers of the script, `u = 0` in exact arithmetic), the frame is given the bottom
`frameTop = fl(columnTop - yOffset)` and the top `fl(frameTop - frameHeight)`, where
`columnTop = fl(10.5 - fl(fl(H/2) + 0.25))`, `yOffset = 0.4375` and `frameHeight` is the
height it had, and the left and right edges 0.25 and 8.25; so its height is `frameHeight`
within `u * |frameTop - frameHeight|`, and it ends `yOffset` above the top of the
description columns within `u * |columnTop - yOffset|`.  With exact arithmetic these are
the bounds of the attribute frame of the layout when the description is non-empty. -/
theorem attributeFrame_repositioned (fl : ℚ → ℚ) (u : ℚ)
    (hfl : ∀ x : ℚ, |fl x - x| ≤ u * |x|) (hright : fl 8.25 = 8.25) (H : ℚ)
    (bounds : Bounds) :
    repositionedBounds fl H bounds
      = ⟨fl (fl (columnTopRounded fl H - 0.4375) - frameHeightRounded fl bounds), 0.25,
          fl (columnTopRounded fl H - 0.4375), 8.25⟩
    ∧ columnTopRounded fl H = fl (10.5 - fl (fl (H / 2) + 0.25))
    ∧ frameHeightRounded fl bounds = fl (bounds.bottom - bounds.top)
    ∧ |((repositionedBounds fl H bounds).bottom - (repositionedBounds fl H bounds).top)
          - frameHeightRounded fl bounds|
        ≤ u * |(repositionedBounds fl H bounds).bottom - frameHeightRounded fl bounds|
    ∧ |(columnTopRounded fl H - (repositionedBounds fl H bounds).bottom) - 0.4375|
        ≤ u * |columnTopRounded fl H - 0.4375|
    ∧ (∀ (host : Host) (project : JSObject), projectDescription host project ≠ [] →
        (projectLayout host project).frame.geometricBounds
          = repositionedBounds (fun x => x) (estimatedHeight host project)
              (attributeFrame host project).geometricBounds) := by
  have hx : xPosition + 8 = (8.25 : ℚ) := by unfold xPosition; norm_num
  refine ⟨?_, rfl, rfl, ?_, ?_, repositionedBounds_exact⟩
  · unfold repositionedBounds frameTopRounded
    rw [hx, hright]
    rfl
  · have h := hfl (frameTopRounded fl H - frameHeightRounded fl bounds)
    have hrw : (repositionedBounds fl H bounds).bottom - (repositionedBounds fl H bounds).top
          - frameHeightRounded fl bounds
        = -(fl (frameTopRounded fl H - frameHeightRounded fl bounds)
            - (frameTopRounded fl H - frameHeightRounded fl bounds)) := by
      simp only [repositionedBounds]
      ring
    rw [hrw, abs_neg]
    exact h
  · have h := hfl (columnTopRounded fl H - yOffset)
    have hrw : columnTopRounded fl H - (repositionedBounds fl H bounds).bottom - 0.4375
        = -(fl (columnTopRounded fl H - yOffset) - (columnTopRounded fl H - yOffset)) := by
      simp only [repositionedBounds, frameTopRounded, yOffset]
      ring
    rw [hrw, abs_neg]
    have hy : yOffset = (0.4375 : ℚ) := rfl
    rw [hy] at h
    exact h

/-- Witness for claim C9: the rounding `roundBinary64` has the relative error bound `2^-53`
and keeps 8.25; for `H = 1` and the frame from 6 to the number nearest 6.7 the height after
the move is the height before within that bound. -/
theorem attributeFrame_repositioned_witness :
    (∀ x : ℚ, |roundBinary64 x - x| ≤ 2 ^ (-53 : ℤ) * |x|)
    ∧ roundBinary64 8.25 = 8.25
    ∧ |((repositionedBounds roundBinary64 1 exampleBounds).bottom
          - (repositionedBounds roundBinary64 1 exampleBounds).top)
          - frameHeightRounded roundBinary64 exampleBounds|
        ≤ 2 ^ (-53 : ℤ) * |(repositionedBounds roundBinary64 1 exampleBounds).bottom
            - frameHeightRounded roundBinary64 exampleBounds| := by
  have h825 : roundBinary64 8.25 = 8.25 :=
    roundBinary64_exact _ 3 4644337115725824 (by norm_num) (by norm_num) (by norm_num)
      (by norm_num)
  exact ⟨roundBinary64_error, h825,
    (attributeFrame_repositioned roundBinary64 (2 ^ (-53 : ℤ)) roundBinary64_error h825 1
      exampleBounds).2.2.2.1⟩

/-! ## Lemmas on the attribute table -/

theorem toUpper_eq_or_lower (c : Char) :
    c.toUpper = c ∨ ∃ n, 97 ≤ n ∧ n ≤ 122 ∧ c = Char.ofNat n := by
  unfold Char.toUpper
  by_cases h : c.toNat ≥ 97 ∧ c.toNat ≤ 122
  · exact Or.inr ⟨c.toNat, h.1, h.2, (Char.ofNat_toNat c).symm⟩
  · simp only [h, if_false]
    exact Or.inl trivial

theorem upperCaseWordStarts_congr (p q : Char) (h : isWordChar p = isWordChar q)
    (t : JSString) : upperCaseWordStarts (some p) t = upperCaseWordStarts (some q) t := by
  cases t with
  | nil => rfl
  | cons c cs =>
    rw [upperCaseWordStarts_cons, upperCaseWordStarts_cons]
    simp only [h]

theorem formatAttributeName_toUpper_cons (c : Char) (rest : JSString) :
    formatAttributeName (c.toUpper :: rest) = formatAttributeName (c :: rest) := by
  rcases toUpper_eq_or_lower c with h | ⟨n, h1, h2, rfl⟩
  · rw [h]
  · have hfacts : (Char.ofNat n).toUpper ≠ '_' ∧ Char.ofNat n ≠ '_'
        ∧ isWordChar (Char.ofNat n).toUpper = true ∧ isWordChar (Char.ofNat n) = true
        ∧ (Char.ofNat n).toUpper.toUpper = (Char.ofNat n).toUpper := by
      interval_cases n <;> decide
    obtain ⟨f1, f2, f3, f4, f5⟩ := hfacts
    unfold formatAttributeName replaceUnderscores
    rw [List.map_cons, List.map_cons, if_neg f1, if_neg f2, upperCaseWordStarts_cons,
      upperCaseWordStarts_cons, f3, f4, f5]
    rw [upperCaseWordStarts_congr _ _ (f3.trans f4.symm)]
    rfl

theorem upperCaseFirst_format (toUpperCase : Char → JSString) (name : JSString)
    (h : ∀ c ∈ name.head?, toUpperCase c = [c.toUpper]) :
    formatAttributeName (upperCaseFirst toUpperCase name) = formatAttributeName name := by
  cases name with
  | nil => rfl
  | cons c rest =>
    have hfirst : upperCaseFirst toUpperCase (c :: rest) = toUpperCase c ++ rest := rfl
    rw [hfirst, h c (by simp)]
    exact formatAttributeName_toUpper_cons c rest

theorem insertArrayIndex_of_smaller (key : JSString) (value : Option JSString)
    (obj : JSObject)
    (h : ∀ kv ∈ obj, isArrayIndex kv.1 = true ∧ decimalValue kv.1 < decimalValue key) :
    insertArrayIndex key value obj = obj ++ [(key, value)] := by
  induction obj with
  | nil => rfl
  | cons kv rest ih =>
    rw [insertArrayIndex, if_pos (h kv (by simp)),
      ih (fun kv2 hkv2 => h kv2 (List.mem_cons_of_mem _ hkv2)), List.cons_append]

theorem setProperty_of_new (obj : JSObject) (key : JSString) (value : Option JSString)
    (hproto : key ≠ protoName) (h : ∀ kv ∈ obj, kv.1 ≠ key)
    (hindex : isArrayIndex key = true →
      ∀ kv ∈ obj, isArrayIndex kv.1 = true ∧ decimalValue kv.1 < decimalValue key) :
    setProperty obj key value = obj ++ [(key, value)] := by
  unfold setProperty
  have hany : obj.any (fun kv => decide (kv.1 = key)) = false := by
    rw [List.any_eq_false]
    intro kv hkv
    simpa using h kv hkv
  rw [if_neg hproto, hany]
  by_cases hi : isArrayIndex key = true
  · rw [if_neg (by decide), if_pos hi, insertArrayIndex_of_smaller key value obj (hindex hi)]
  · rw [if_neg (by decide), if_neg hi]

theorem foldl_setProperty (data : List JSString) (hs : List JSString) :
    ∀ (n : Nat) (obj : JSObject), hs.Nodup → protoName ∉ hs → ArrayIndexNamesFirst hs →
      (∀ kv ∈ obj, kv.1 ∉ hs) →
      (∀ kv ∈ obj, ∀ name ∈ hs, isArrayIndex name = true →
        isArrayIndex kv.1 = true ∧ decimalValue kv.1 < decimalValue name) →
      (List.enumFrom n hs).foldl (fun obj jh => setProperty obj jh.2 (data.get? jh.1)) obj
        = obj ++ (List.enumFrom n hs).map (fun jh => (jh.2, data.get? jh.1)) := by
  induction hs with
  | nil => intro n obj _ _ _ _ _; simp
  | cons name rest ih =>
    intro n obj hnodup hproto hfirst hnew hsmaller
    rw [List.enumFrom_cons, List.foldl_cons, List.map_cons]
    have hname : ∀ kv ∈ obj, kv.1 ≠ name := by
      intro kv hkv e
      exact hnew kv hkv (by rw [e]; exact List.mem_cons_self _ _)
    have hp : name ≠ protoName := fun e => hproto (by rw [e]; exact List.mem_cons_self _ _)
    rw [setProperty_of_new obj name _ hp hname
      (fun hi kv hkv => hsmaller kv hkv name (List.mem_cons_self _ _) hi)]
    have hrest : rest.Nodup := (List.nodup_cons.mp hnodup).2
    have hnotin : name ∉ rest := (List.nodup_cons.mp hnodup).1
    have hfirst2 := List.pairwise_cons.mp hfirst
    rw [ih (n + 1) _ hrest (fun hmem => hproto (List.mem_cons_of_mem _ hmem)) hfirst2.2]
    · simp
    · intro kv hkv
      rcases List.mem_append.mp hkv with h1 | h1
      · exact fun hmem => hnew kv h1 (List.mem_cons_of_mem _ hmem)
      · have : kv = (name, data.get? n) := by simpa using h1
        rw [this]
        exact hnotin
    · intro kv hkv later hlater hi
      rcases List.mem_append.mp hkv with h1 | h1
      · exact hsmaller kv h1 later (List.mem_cons_of_mem _ hlater) hi
      · have : kv = (name, data.get? n) := by simpa using h1
        rw [this]
        exact hfirst2.1 later hlater hi

theorem currentProject_in_header_order (headers data : List JSString) (h : headers.Nodup)
    (hproto : protoName ∉ headers) (hfirst : ArrayIndexNamesFirst headers) :
    currentProject headers data = headers.enum.map (fun jh => (jh.2, data.get? jh.1)) := by
  unfold currentProject List.enum
  rw [foldl_setProperty data headers 0 [] h hproto hfirst (by simp) (by simp)]
  rfl

theorem isInSkipAttributesFrom_eq_true (key : JSString) (skipped : List JSString) :
    isInSkipAttributesFrom key skipped = true ↔ key ∈ skipped := by
  induction skipped with
  | nil => simp [isInSkipAttributesFrom]
  | cons a rest ih =>
    rw [isInSkipAttributesFrom]
    by_cases h : key = a
    · simp [h]
    · rw [if_neg h, ih]
      simp [h]

theorem isInSkipAttributes_eq_false (key : JSString) :
    isInSkipAttributes key = false ↔ key ∉ excludedNames := by
  have h := isInSkipAttributesFrom_eq_true key skipAttributes
  unfold isInSkipAttributes
  have hsame : excludedNames = skipAttributes := rfl
  rw [hsame, ← h]
  simp

theorem attributeStep_eq (toUpperCase : Char → JSString) (contents : JSString)
    (kv : JSString × Option JSString) :
    attributeStep toUpperCase contents kv
      = contents ++ (match kv.2 with
          | some value =>
            if kv.1 ∉ excludedNames ∧ value ≠ [] then
              formatAttributeName (upperCaseFirst toUpperCase kv.1) ++ ['\t'] ++ value ++ ['\r']
            else []
          | none => []) := by
  unfold attributeStep
  cases hv : kv.2 with
  | none => simp
  | some value =>
    simp only []
    by_cases hc : isInSkipAttributes kv.1 = false ∧ value ≠ []
    · have hc2 : kv.1 ∉ excludedNames ∧ value ≠ [] :=
        ⟨(isInSkipAttributes_eq_false kv.1).mp hc.1, hc.2⟩
      rw [if_pos hc, if_pos hc2]
      rfl
    · have hc2 : ¬ (kv.1 ∉ excludedNames ∧ value ≠ []) :=
        fun hh => hc ⟨(isInSkipAttributes_eq_false kv.1).mpr hh.1, hh.2⟩
      rw [if_neg hc, if_neg hc2]
      simp

theorem foldl_attributeStep (toUpperCase : Char → JSString) (project : JSObject) :
    ∀ contents : JSString,
      project.foldl (attributeStep toUpperCase) contents
        = contents ++ (project.map (fun kv => match kv.2 with
            | some value =>
              if kv.1 ∉ excludedNames ∧ value ≠ [] then
                formatAttributeName (upperCaseFirst toUpperCase kv.1) ++ ['\t'] ++ value
                  ++ ['\r']
              else []
            | none => [])).flatten := by
  induction project with
  | nil => intro contents; simp
  | cons kv rest ih =>
    intro contents
    rw [List.foldl_cons, ih, attributeStep_eq, List.map_cons, List.flatten_cons,
      List.append_assoc]

theorem enum_map_eq_range_map {β : Type} (headers : List JSString)
    (f : Nat → JSString → β) (d : Nat → β) :
    headers.enum.map (fun jh => f jh.1 jh.2)
      = (List.range headers.length).map (fun j => match headers.get? j with
          | some name => f j name
          | none => d j) := by
  apply List.ext_getElem
  · simp
  · intro i h1 h2
    have hi : i < headers.length := by simpa using h1
    simp [List.getElem?_eq_getElem hi]

theorem attributeContents_matches_table (toUpperCase : Char → JSString)
    (headers data : List JSString) (hnodup : headers.Nodup) (hproto : protoName ∉ headers)
    (hfirst : ArrayIndexNamesFirst headers) :
    attributeContents toUpperCase (currentProject headers data)
      = attributeTable (fun name => formatAttributeName (upperCaseFirst toUpperCase name))
          headers data := by
  unfold attributeContents attributeTable
  rw [foldl_attributeStep, currentProject_in_header_order headers data hnodup hproto hfirst,
    List.nil_append,
    List.map_map]
  congr 1
  have h := enum_map_eq_range_map headers
    (fun j name => match data.get? j with
      | some value =>
        if name ∉ excludedNames ∧ value ≠ [] then
          formatAttributeName (upperCaseFirst toUpperCase name) ++ ['\t'] ++ value ++ ['\r']
        else []
      | none => ([] : JSString))
    (fun _ => [])
  refine Eq.trans ?_ (Eq.trans h ?_)
  · apply List.map_congr_left
    intro jh _
    rfl
  · apply List.map_congr_left
    intro j _
    cases headers.get? j with
    | none => rfl
    | some name =>
      cases data.get? j with
      | none => rfl
      | some value => rfl

theorem attributeTable_congr (label1 label2 : JSString → JSString)
    (headers data : List JSString) (h : ∀ name ∈ headers, label1 name = label2 name) :
    attributeTable label1 headers data = attributeTable label2 headers data := by
  unfold attributeTable
  congr 1
  apply List.map_congr_left
  intro j _
  cases hj : headers.get? j with
  | none => rfl
  | some name =>
    have hmem : name ∈ headers := List.get?_mem hj
    cases data.get? j with
    | none => rfl
    | some value =>
      simp only []
      rw [h name hmem]

theorem attributeContents_on_ascii (toUpperCase : Char → JSString)
    (headers data : List JSString) (hnodup : headers.Nodup) (hproto : protoName ∉ headers)
    (hfirst : ArrayIndexNamesFirst headers)
    (h : ∀ name ∈ headers, ∀ c ∈ name.head?, toUpperCase c = [c.toUpper]) :
    attributeContents toUpperCase (currentProject headers data)
      = attributeTable formatAttributeName headers data := by
  rw [attributeContents_matches_table toUpperCase headers data hnodup hproto hfirst]
  apply attributeTable_congr
  intro name hname
  exact upperCaseFirst_format toUpperCase name (h name hname)

theorem exampleHeaders_eq :
    parseCSVLine "title,owner,budget".toList
      = ["title".toList, "owner".toList, "budget".toList] := by
  decide

theorem exampleHeaders_first :
    ArrayIndexNamesFirst ["title".toList, "owner".toList, "budget".toList] := by
  unfold ArrayIndexNamesFirst
  decide

theorem isArrayIndex_examples :
    isArrayIndex "0".toList = true ∧ isArrayIndex "17".toList = true
    ∧ isArrayIndex "4294967294".toList = true ∧ isArrayIndex "4294967295".toList = false
    ∧ isArrayIndex "01".toList = false ∧ isArrayIndex "1a".toList = false
    ∧ isArrayIndex [] = false ∧ isArrayIndex "-1".toList = false := by
  decide

/-- The order of the properties when the header row has an array-index name after another
name, and the header `__proto__`: the header `title,b,1` gives the property `1` first, and
the header `title,__proto__,b` gives no property `__proto__`. -/
theorem currentProject_special_names :
    currentProject ["title".toList, "b".toList, "1".toList]
        ["A".toList, "x".toList, "y".toList]
      = [("1".toList, some "y".toList), ("title".toList, some "A".toList),
          ("b".toList, some "x".toList)]
    ∧ currentProject ["title".toList, "__proto__".toList, "b".toList]
        ["A".toList, "x".toList, "y".toList]
      = [("title".toList, some "A".toList), ("b".toList, some "y".toList)] := by
  decide

/-- Claim C10, as stated, fails: for the header `état` and the row `x`, with the upper-casing
of ECMAScript, the code first turns the name into `État` and the text is `ÉTat`, a tab, `x`
and a carriage return, while `formatAttributeName` of the name itself is `éTat`. -/
theorem attributeContents_not_formatAttributeName :
    ["état".toList].Nodup
    ∧ attributeContents toUpperCaseLatin1 (currentProject ["état".toList] ["x".toList])
        = "ÉTat\tx\r".toList
    ∧ attributeTable formatAttributeName ["état".toList] ["x".toList] = "éTat\tx\r".toList
    ∧ attributeContents toUpperCaseLatin1 (currentProject ["état".toList] ["x".toList])
        ≠ attributeTable formatAttributeName ["état".toList] ["x".toList] := by
  decide

/-- Claim C10, amended: for every header row with pairwise distinct names, none of them
`__proto__`, in which no name that comes after another is an array-index name unless the
earlier one is an array-index name of smaller index, and for every data row, the record
has the names in header order, and the attribute-table text is the concatenation, in
header order, over the header positions `j` whose name is not one of `title`, `id`,
`locked`, `page`, `type` and whose data field `j` exists and is non-empty, of
`formatAttributeName` of the name with its first character upper-cased, a tab, the field
and a carriage return; fields beyond the header count are ignored.  The label is
`formatAttributeName` of the name itself when every name is empty or starts with a
character that `toUpperCase` maps to its ASCII upper case, as it does every ASCII
character; so for the header `title,owner,budget` and the row `Alpha,Jane,5000` the text
is `Owner\tJane\rBudget\t5000\r`. -/
theorem attributeContents_eq_attributeTable (toUpperCase : Char → JSString)
    (headers data : List JSString) (hnodup : headers.Nodup) (hproto : protoName ∉ headers)
    (hfirst : ArrayIndexNamesFirst headers) :
    currentProject headers data = headers.enum.map (fun jh => (jh.2, data.get? jh.1))
    ∧ attributeContents toUpperCase (currentProject headers data)
      = attributeTable (fun name => formatAttributeName (upperCaseFirst toUpperCase name))
          headers data
    ∧ ((∀ name ∈ headers, ∀ c ∈ name.head?, toUpperCase c = [c.toUpper]) →
        attributeContents toUpperCase (currentProject headers data)
          = attributeTable formatAttributeName headers data)
    ∧ ((∀ c : Char, c.toNat < 128 → toUpperCase c = [c.toUpper]) →
        attributeContents toUpperCase
            (currentProject (parseCSVLine "title,owner,budget".toList)
              (parseCSVLine "Alpha,Jane,5000".toList))
          = "Owner\tJane\rBudget\t5000\r".toList) := by
  refine ⟨currentProject_in_header_order headers data hnodup hproto hfirst,
    attributeContents_matches_table toUpperCase headers data hnodup hproto hfirst,
    attributeContents_on_ascii toUpperCase headers data hnodup hproto hfirst, ?_⟩
  intro hascii
  rw [exampleHeaders_eq,
    attributeContents_on_ascii toUpperCase _ _ (by decide) (by decide) exampleHeaders_first]
  · decide
  · intro name hname c hc
    apply hascii
    have hhead : name.head? = some c := Option.mem_def.mp hc
    simp only [List.mem_cons, List.mem_singleton, List.not_mem_nil, or_false] at hname
    rcases hname with h | h | h <;> subst h <;> simp at hhead <;> subst hhead <;> decide

/-- Witness for claim C10: the names `title`, `owner`, `budget` are pairwise distinct, none
is `__proto__` or an array-index name, they start with ASCII letters, and the text for the
row `Alpha,Jane,5000` is that of the table. -/
theorem attributeContents_eq_attributeTable_witness :
    (parseCSVLine "title,owner,budget".toList).Nodup
    ∧ protoName ∉ parseCSVLine "title,owner,budget".toList
    ∧ ArrayIndexNamesFirst (parseCSVLine "title,owner,budget".toList)
    ∧ attributeContents toUpperCaseLatin1 exampleProject
        = "Owner\tJane\rBudget\t5000\r".toList :=
  ⟨by decide, by decide, by rw [exampleHeaders_eq]; exact exampleHeaders_first,
    (attributeContents_eq_attributeTable toUpperCaseLatin1
      (parseCSVLine "title,owner,budget".toList) (parseCSVLine "Alpha,Jane,5000".toList)
      (by decide) (by decide) (by rw [exampleHeaders_eq]; exact exampleHeaders_first)).2.2.2
      (by
        intro c hc
        have hnot : ¬ (c.toNat = 0xB5) ∧ ¬ (c.toNat = 0xDF) ∧ ¬ (c.toNat = 0xFF)
            ∧ ¬ (0xE0 ≤ c.toNat ∧ c.toNat ≤ 0xFE ∧ c.toNat ≠ 0xF7) := by
          refine ⟨?_, ?_, ?_, ?_⟩ <;> omega
        unfold toUpperCaseLatin1
        rw [if_neg hnot.1, if_neg hnot.2.1, if_neg hnot.2.2.1, if_neg hnot.2.2.2])⟩

end PortfolioUtilities
